import Mathlib

/-!
# Verification of the nyxsitemap generator (`sitemap.go`)

Shallow embedding of the sitemap generation package: URL entries, the
`AddURL` date-normalisation step, URL resolution (`net/url` reference
resolution), XML emission of sitemap shards and the sitemap index, the
single-file / indexed layout decision of `Write`, and the
validate-index-then-shards control flow of `validateSitemapIndexAndFiles`.

Conventions of the embedding:
* Go strings are Lean `String`s; byte-level work is done on `String.data`.
* Emitted file contents are modelled as their list of lines (the rendered
  byte string is the `"\n"`-intercalation of that list; every rendered line
  is newline-free because XML character data is escaped).
* `time.Now()` is an explicit `Instant` parameter.
* The libxml2/XSD schema validator is an oracle parameter
  `v : List String → Bool → Option String` (content, isIndex ↦ error?),
  mirroring the external validation collaborator.
-/

namespace NyxSitemap

/-- Split a character list at the first occurrence of `sep`
(Go `strings.Cut`): returns (before, after, found). -/
def cutList (sep : Char) : List Char → List Char × List Char × Bool
  | [] => ([], [], false)
  | c :: cs =>
    if c = sep then ([], cs, true)
    else
      let r := cutList sep cs
      (c :: r.1, r.2.1, r.2.2)

/-- Go `strings.TrimRight(s, "/")`: drop all trailing `'/'` characters. -/
def trimRightSlashes (s : String) : String :=
  ⟨(s.data.reverse.dropWhile (· = '/')).reverse⟩

/-- Go `path.Join(dir, name)` as used here: the directory is assumed clean
(no dot segments, no trailing slash), so joining is plain concatenation
with a separator; `path.Clean` is the identity on such inputs. -/
def pathJoin (dir name : String) : String :=
  if dir = "" then name else dir ++ "/" ++ name

/-- Go `path.Base`: last element of the slash-separated path.
Empty input gives ".", an all-slash input gives "/". -/
def pathBase (s : String) : String :=
  if s = "" then "."
  else
    let l := s.data.reverse.dropWhile (· = '/')
    let b := l.takeWhile (· ≠ '/')
    if b = [] then "/" else ⟨b.reverse⟩

/-! ## Calendar dates (Go `time.Parse("2006-01-02", ·)` / `Format`) -/

/-- One calendar day (no time-of-day), as `time.Parse("2006-01-02", ·)`
produces. -/
structure CalDate where
  year : Nat
  month : Nat
  day : Nat
deriving DecidableEq, Repr

def isLeapYear (y : Nat) : Bool :=
  y % 4 = 0 && (y % 100 ≠ 0 || y % 400 = 0)

def daysInMonth (y m : Nat) : Nat :=
  if m = 2 then (if isLeapYear y then 29 else 28)
  else if m = 4 ∨ m = 6 ∨ m = 9 ∨ m = 11 then 30
  else 31

/-- The calendar validity check `time.Parse` applies to a `2006-01-02`
layout: month in 1..12, day in 1..daysInMonth. -/
def validDate (d : CalDate) : Bool :=
  1 ≤ d.month && d.month ≤ 12 && 1 ≤ d.day && d.day ≤ daysInMonth d.year d.month

def isDigitChar (c : Char) : Bool :=
  48 ≤ c.toNat && c.toNat ≤ 57

def digitVal (c : Char) : Nat := c.toNat - 48

/-- The decimal digit character for `n ≤ 9` (used to model Go's zero-padded
`%02d`/`2006` date formatting). -/
def digitChar (n : Nat) : Char :=
  if n = 0 then '0' else if n = 1 then '1' else if n = 2 then '2'
  else if n = 3 then '3' else if n = 4 then '4' else if n = 5 then '5'
  else if n = 6 then '6' else if n = 7 then '7' else if n = 8 then '8' else '9'

def pad2 (n : Nat) : List Char := [digitChar (n / 10 % 10), digitChar (n % 10)]

def pad4 (n : Nat) : List Char :=
  [digitChar (n / 1000 % 10), digitChar (n / 100 % 10),
   digitChar (n / 10 % 10), digitChar (n % 10)]

/-- Go `time.Now().UTC().Format("2006-01-02")` applied to a date: fixed
`YYYY-MM-DD` with zero padding (faithful for years ≤ 9999). -/
def formatDate (d : CalDate) : String :=
  ⟨pad4 d.year ++ '-' :: (pad2 d.month ++ '-' :: pad2 d.day)⟩

/-- Go `time.Parse("2006-01-02", s)`: the layout demands exactly
4-digit year, `'-'`, 2-digit month, `'-'`, 2-digit day, and the parsed
components must form a valid calendar date (month and day in range,
February checked against leap years). -/
def parseDate (s : String) : Option CalDate :=
  match s.data with
  | [y1, y2, y3, y4, h1, m1, m2, h2, d1, d2] =>
    if h1 = '-' ∧ h2 = '-' ∧ isDigitChar y1 ∧ isDigitChar y2 ∧ isDigitChar y3 ∧
        isDigitChar y4 ∧ isDigitChar m1 ∧ isDigitChar m2 ∧ isDigitChar d1 ∧
        isDigitChar d2 then
      let d : CalDate :=
        { year := digitVal y1 * 1000 + digitVal y2 * 100 + digitVal y3 * 10 + digitVal y4
          month := digitVal m1 * 10 + digitVal m2
          day := digitVal d1 * 10 + digitVal d2 }
      if validDate d then some d else none
    else none
  | _ => none

/-- A moment in time: calendar day plus second-of-day.  `dateOrd` below is an
order-embedding of calendar dates standing in for days-since-epoch; only the
ordering of instants matters to the code (`time.Time.After`). -/
structure Instant where
  date : CalDate
  secondOfDay : Nat
deriving Repr

def dateOrd (d : CalDate) : Nat := d.year * 512 + d.month * 32 + d.day

def instantOrd (i : Instant) : Nat := dateOrd i.date * 86400 + i.secondOfDay

/-- Go `a.After(b)`: strict order on instants. -/
def timeAfter (a b : Instant) : Bool := instantOrd b < instantOrd a

/-! ## The data model and `AddURL` -/

/-- `SitemapURL` (src/sitemap.go): one `<url>` entry.  The `XMLName` field is
`encoding/xml` routing metadata with no data content and is not modelled. -/
structure SitemapURL where
  loc : String
  lastMod : String
  changeFreq : String
  priority : String
deriving DecidableEq, Repr

/-- `SitemapOptions` (src/sitemap.go). -/
structure SitemapOptions where
  maxFileSize : Nat
  maxURLs : Nat
  dir : String
  baseURL : String
  urls : List SitemapURL
  stylesheet : String
deriving Repr

/-- `NewSitemapOptions` (src/sitemap.go): 50MB size cap, the reduced
33333-URL ceiling, and a right-trimmed base URL. -/
def NewSitemapOptions (dir baseURL : String) : SitemapOptions :=
  { maxFileSize := 52428800
    maxURLs := 33333
    dir := dir
    baseURL := trimRightSlashes baseURL
    urls := []
    stylesheet := "" }

/-- The lastmod-defaulting step of `AddURL` (src/sitemap.go lines 140-147):
empty → today; unparseable or parsing to an instant after `now` → today;
otherwise kept verbatim. -/
def normalizeLastMod (lm : String) (now : Instant) : String :=
  if lm = "" then formatDate now.date
  else
    match parseDate lm with
    | none => formatDate now.date
    | some d => if timeAfter ⟨d, 0⟩ now then formatDate now.date else lm

/-- `AddURL` (src/sitemap.go): normalise `LastMod`, then append. -/
def AddURL (s : SitemapOptions) (u : SitemapURL) (now : Instant) : SitemapOptions :=
  { s with urls := s.urls ++ [{ u with lastMod := normalizeLastMod u.lastMod now }] }

/-- `AddURLs` (src/sitemap.go): `AddURL` for each entry in order; each call
carries its own clock reading. -/
def AddURLs (s : SitemapOptions) (us : List (SitemapURL × Instant)) : SitemapOptions :=
  us.foldl (fun st p => AddURL st p.1 p.2) s

/-! ## URLs (`net/url`)

`resolveURL` in src/sitemap.go is `url.Parse` on the base and the
reference followed by `base.ResolveReference(ref).String()`.  `net/url` is
an external dependency; it is embedded here on a restricted but honest
domain: URLs built from unreserved characters and `:/?#!$()*+,;=` — no
userinfo, no percent-escapes, no bracketed hosts.  `parseURL` rejects
strings outside this domain.  Reference resolution follows the documented
contract (RFC 3986 §5.3, which `URL.ResolveReference` implements), with
`resolvePath` modelled from the spec as merge (§5.2.3) followed by
dot-segment removal (§5.2.4) over an always-rooted output buffer, the
way `net/url` implements it. -/

/-- Go's ASCII letter test (`'a' <= c && c <= 'z' || 'A' <= c && c <= 'Z'`). -/
def isAlphaChar (c : Char) : Bool :=
  (97 ≤ c.toNat && c.toNat ≤ 122) || (65 ≤ c.toNat && c.toNat ≤ 90)

/-- The character domain of the embedded `net/url` model. -/
def allowedURLChar (c : Char) : Bool :=
  isAlphaChar c || isDigitChar c ||
    ['-', '.', '_', '~', ':', '/', '?', '#', '!', '$', '(', ')', '*', '+',
     ',', ';', '='].contains c

/-- `net/url.URL` (no `User`; `opq` is Go's `Opaque`). -/
structure GoURL where
  scheme : String := ""
  opq : String := ""
  host : String := ""
  omitHost : Bool := false
  path : String := ""
  forceQuery : Bool := false
  rawQuery : String := ""
  fragment : String := ""
deriving DecidableEq, Repr

/-- ASCII lower-casing, Go `strings.ToLower` on the scheme alphabet. -/
def lowerChar (c : Char) : Char :=
  if 'A' ≤ c ∧ c ≤ 'Z' then Char.ofNat (c.toNat + 32) else c

def lowerStr (s : String) : String := ⟨s.data.map lowerChar⟩

/-- `net/url.getScheme`: scan for `scheme:`; letters anywhere, digits and
`+ - .` after the first position; `:` at position 0 is the
"missing protocol scheme" error; any other character means no scheme. -/
def getSchemeAux (orig : String) : List Char → Nat → Option (String × String)
  | [], _ => some ("", orig)
  | c :: cs, i =>
    if isAlphaChar c then getSchemeAux orig cs (i + 1)
    else if isDigitChar c ∨ c = '+' ∨ c = '-' ∨ c = '.' then
      if i = 0 then some ("", orig) else getSchemeAux orig cs (i + 1)
    else if c = ':' then
      if i = 0 then none
      else some (⟨orig.data.take i⟩, ⟨orig.data.drop (i + 1)⟩)
    else some ("", orig)

def getScheme (s : String) : Option (String × String) := getSchemeAux s s.data 0

/-- `net/url.validOptionalPort`, as invoked by `parseHost`: if the host
carries a colon, everything after the last colon must be decimal digits. -/
def validOptionalPort (hostport : List Char) : Bool :=
  if hostport.contains ':' then
    (hostport.reverse.takeWhile (· ≠ ':')).all isDigitChar
  else true

/-- The body of `net/url.parse` (viaRequest = false) after the fragment has
been cut off and the scheme extracted: query split, opaque/rootless
handling, authority extraction, path. -/
def parseAfterScheme (scheme : String) (rest0 : List Char) : Option GoURL :=
  let qsplit :=
    if rest0.getLast? = some '?' ∧ ¬ rest0.dropLast.contains '?' then
      (rest0.dropLast, true, ([] : List Char))
    else
      let r := cutList '?' rest0
      (r.1, false, r.2.1)
  let rest := qsplit.1
  let forceQ := qsplit.2.1
  let rawQ : String := ⟨qsplit.2.2⟩
  if ¬ rest.head? = some '/' then
    if scheme ≠ "" then
      some { scheme := scheme, opq := ⟨rest⟩, forceQuery := forceQ, rawQuery := rawQ }
    else if (rest.takeWhile (· ≠ '/')).contains ':' then
      none
    else
      some { path := ⟨rest⟩, forceQuery := forceQ, rawQuery := rawQ }
  else
    if (scheme ≠ "" ∨ ¬ rest.take 3 = ['/', '/', '/']) ∧ rest.take 2 = ['/', '/'] then
      let auth := (rest.drop 2).takeWhile (· ≠ '/')
      let rest2 := (rest.drop 2).dropWhile (· ≠ '/')
      if validOptionalPort auth then
        some { scheme := scheme, host := ⟨auth⟩, path := ⟨rest2⟩,
               forceQuery := forceQ, rawQuery := rawQ }
      else none
    else
      some { scheme := scheme, omitHost := scheme ≠ "", path := ⟨rest⟩,
             forceQuery := forceQ, rawQuery := rawQ }

/-- `net/url.Parse`: cut the fragment at the first `#`, extract and
lower-case the scheme, then parse the remainder. -/
def parseURL (raw : String) : Option GoURL :=
  if ¬ raw.data.all allowedURLChar then none
  else
    let fsplit := cutList '#' raw.data
    match getScheme ⟨fsplit.1⟩ with
    | none => none
    | some (sch, rest) =>
      match parseAfterScheme (lowerStr sch) rest.data with
      | none => none
      | some u => some { u with fragment := ⟨fsplit.2.1⟩ }

def firstSegmentHasColon (p : String) : Bool :=
  (p.data.takeWhile (· ≠ '/')).contains ':'

/-- `net/url.URL.String` (no userinfo): `scheme:`, opaque or
`//host` + path (with the RFC 3986 §4.2 `./` guard), `?query`,
`#fragment`. -/
def urlString (u : GoURL) : String :=
  let schemePart := if u.scheme = "" then "" else u.scheme ++ ":"
  let core :=
    if u.opq ≠ "" then u.opq
    else
      let auth :=
        if u.scheme = "" ∧ u.host = "" then ""
        else if u.omitHost ∧ u.host = "" then ""
        else if u.host ≠ "" ∨ u.path ≠ "" then "//" ++ u.host
        else ""
      let slash :=
        if u.path ≠ "" ∧ ¬ u.path.data.head? = some '/' ∧ u.host ≠ "" then "/" else ""
      let dotSlash :=
        if u.scheme = "" ∧ auth = "" ∧ slash = "" ∧ firstSegmentHasColon u.path
        then "./" else ""
      auth ++ slash ++ dotSlash ++ u.path
  schemePart ++ core ++
    (if u.forceQuery ∨ u.rawQuery ≠ "" then "?" ++ u.rawQuery else "") ++
    (if u.fragment ≠ "" then "#" ++ u.fragment else "")

/-- The segment-boundary predicate: true away from `'/'`. -/
def notSlash (c : Char) : Bool := decide (c ≠ '/')

/-- Remove the last segment and its preceding `/` from the output buffer
(RFC 3986 §5.2.4 case C). -/
def dropLastSegment (out : List Char) : List Char :=
  match out.reverse.dropWhile (· ≠ '/') with
  | [] => []
  | _ :: t => t.reverse

/-- Keep everything up to and including the last `/` (RFC 3986 §5.2.3
merge helper, `base[:strings.LastIndex(base, "/")+1]`). -/
def dropAfterLastSlash (l : List Char) : List Char :=
  (l.reverse.dropWhile (· ≠ '/')).reverse

/-- Modelled from the spec: one step of `net/url.resolvePath`'s
dot-segment loop (RFC 3986 §5.2.4 over a rooted output buffer).  A `.`
segment is dropped, a `..` segment pops the last written segment —
falling back to the bare root when none is left — and any other segment
is appended, separated by a `/` unless it is the first write. -/
def resolveSegStep (dst : List Char) (first : Bool) (elem : List Char) :
    List Char × Bool :=
  if elem = ['.'] then (dst, false)
  else if elem = ['.', '.'] then
    if (dst.drop 1).contains '/' then ('/' :: dropLastSegment (dst.drop 1), first)
    else (['/'], true)
  else (dst ++ (if first then [] else ['/']) ++ elem, false)

/-- Modelled from the spec: the segment loop of `net/url.resolvePath` —
cut off the next `/`-separated segment, process it, stop after the
segment with no following slash, and append a trailing `/` when that
last segment is `.` or `..`.  The output buffer starts at the root, so
the result is always rooted.  Written with explicit fuel (any fuel above
the input length behaves identically, since every iteration consumes a
separator) to keep the recursion structural. -/
def resolvePathLoop : Nat → List Char → List Char → Bool → List Char
  | 0, _, dst, _ => dst
  | fuel + 1, remaining, dst, first =>
    let c := cutList '/' remaining
    let s := resolveSegStep dst first c.1
    if c.2.2 then resolvePathLoop fuel c.2.1 s.1 s.2
    else if c.1 = ['.'] ∨ c.1 = ['.', '.'] then s.1 ++ ['/'] else s.1

/-- Modelled from the spec: `net/url`'s internal `resolvePath`, RFC 3986
reference resolution — merge the reference path with the base path
(§5.2.3: everything after the base's last slash) and remove dot segments
(§5.2.4) over an always-rooted output, dropping the doubled slash the
forced root can create.  Rooting the output realises §5.2.3's first
bullet: against a base with an authority and an empty path the merged
path gains a leading `/`.  An empty merged path stays empty. -/
def resolvePath (base ref : String) : String :=
  let full :=
    if ref = "" then base
    else if ¬ ref.data.head? = some '/' then
      (⟨dropAfterLastSlash base.data⟩ : String) ++ ref
    else ref
  if full = "" then ""
  else
    let r := resolvePathLoop (full.data.length + 1) full.data ['/'] true
    ⟨if r.take 2 = ['/', '/'] then r.drop 1 else r⟩

/-- `net/url.URL.ResolveReference` (no userinfo): absolute/net-path
references keep their own components with the path dot-normalised; opaque
references are returned as-is; otherwise host and, when the reference is
empty, query and fragment are inherited from the base and the paths are
merged. -/
def resolveReference (u ref : GoURL) : GoURL :=
  let scheme := if ref.scheme = "" then u.scheme else ref.scheme
  if ref.scheme ≠ "" ∨ ref.host ≠ "" then
    { ref with scheme := scheme, path := resolvePath ref.path "" }
  else if ref.opq ≠ "" then
    { ref with scheme := scheme, host := "", path := "" }
  else
    let inheritQ := ref.path = "" ∧ ¬ ref.forceQuery ∧ ref.rawQuery = ""
    { ref with
        scheme := scheme
        host := u.host
        path := resolvePath u.path ref.path
        rawQuery := if inheritQ then u.rawQuery else ref.rawQuery
        fragment := if inheritQ ∧ ref.fragment = "" then u.fragment else ref.fragment }

/-- `url.Parse(base)`, `url.Parse(loc)`, `base.ResolveReference(ref).String()`
— the shared shape of `resolveURL` and `resolveSitemapURL`. -/
def resolveURLAgainst (baseURL loc : String) : Option String := do
  let base ← parseURL baseURL
  let ref ← parseURL loc
  pure (urlString (resolveReference base ref))

/-- `SitemapOptions.resolveURL` (src/sitemap.go lines 200-210). -/
def SitemapOptions.resolveURL (s : SitemapOptions) (loc : String) : Option String :=
  resolveURLAgainst s.baseURL loc

/-- `SitemapOptions.resolveSitemapURL` (src/sitemap.go lines 212-222):
resolve a shard filename against the right-trimmed sitemap base URL with a
trailing slash restored. -/
def resolveSitemapURL (baseSitemapURL name : String) : Option String :=
  resolveURLAgainst (trimRightSlashes baseSitemapURL ++ "/") name

/-! ## XML emission

`writeSitemapFile` / `writeSitemapIndex` produce `xml.Header`, an optional
`xml-stylesheet` processing instruction, and `xml.MarshalIndent(v, "", "  ")`
output.  File contents are modelled as their list of lines;
the byte string on disk is the `"\n"`-intercalation of the list (escaping
keeps character data newline-free, and `xml.Header` ends in the newline
that separates it from what follows). -/

/-- `encoding/xml` character-data escaping: `& < > " '` and
tab/newline/carriage-return become entities. -/
def escChar (c : Char) : List Char :=
  if c = '&' then "&amp;".data
  else if c = '<' then "&lt;".data
  else if c = '>' then "&gt;".data
  else if c = '"' then "&#34;".data
  else if c = '\'' then "&#39;".data
  else if c = '\t' then "&#x9;".data
  else if c = '\n' then "&#xA;".data
  else if c = '\r' then "&#xD;".data
  else [c]

def escapeXML (s : String) : String := ⟨(s.data.map escChar).flatten⟩

/-- `encoding/xml` entity decoding for the entities the escaper emits. -/
def unescapeXMLAux : List Char → List Char
  | '&' :: 'a' :: 'm' :: 'p' :: ';' :: rest => '&' :: unescapeXMLAux rest
  | '&' :: 'l' :: 't' :: ';' :: rest => '<' :: unescapeXMLAux rest
  | '&' :: 'g' :: 't' :: ';' :: rest => '>' :: unescapeXMLAux rest
  | '&' :: '#' :: '3' :: '4' :: ';' :: rest => '"' :: unescapeXMLAux rest
  | '&' :: '#' :: '3' :: '9' :: ';' :: rest => '\'' :: unescapeXMLAux rest
  | '&' :: '#' :: 'x' :: '9' :: ';' :: rest => '\t' :: unescapeXMLAux rest
  | '&' :: '#' :: 'x' :: 'A' :: ';' :: rest => '\n' :: unescapeXMLAux rest
  | '&' :: '#' :: 'x' :: 'D' :: ';' :: rest => '\r' :: unescapeXMLAux rest
  | c :: rest => c :: unescapeXMLAux rest
  | [] => []

def unescapeXML (s : String) : String := ⟨unescapeXMLAux s.data⟩

/-- `xml.Header` without its trailing newline: the first line of every
emitted document. -/
def xmlDeclLine : String := "<?xml version=\"1.0\" encoding=\"UTF-8\"?>"

/-- The processing instruction `fmt.Sprintf` emits for a configured
stylesheet (src/sitemap.go lines 238 and 282), without its trailing
newline. -/
def stylesheetPI (ss : String) : String :=
  "<?xml-stylesheet type=\"text/xsl\" href=\"" ++ ss ++ "\"?>"

def sitemapXmlns : String := "http://www.sitemaps.org/schemas/sitemap/0.9"

/-- `xml.MarshalIndent` lines for one `<url>` element: two-space nesting,
`omitempty` fields skipped when empty. -/
def urlEntryLines (u : SitemapURL) : List String :=
  ["  <url>", "    <loc>" ++ escapeXML u.loc ++ "</loc>"] ++
  (if u.lastMod = "" then []
   else ["    <lastmod>" ++ escapeXML u.lastMod ++ "</lastmod>"]) ++
  (if u.changeFreq = "" then []
   else ["    <changefreq>" ++ escapeXML u.changeFreq ++ "</changefreq>"]) ++
  (if u.priority = "" then []
   else ["    <priority>" ++ escapeXML u.priority ++ "</priority>"]) ++
  ["  </url>"]

/-- `xml.MarshalIndent` lines for a `URLSet` document. -/
def urlsetLines (urls : List SitemapURL) : List String :=
  if urls = [] then ["<urlset xmlns=\"" ++ sitemapXmlns ++ "\"></urlset>"]
  else ("<urlset xmlns=\"" ++ sitemapXmlns ++ "\">") ::
    ((urls.map urlEntryLines).flatten ++ ["</urlset>"])

/-- `writeSitemapFile` document content (src/sitemap.go lines 224-243):
header, optional stylesheet instruction, marshalled `urlset`. -/
def renderURLSetLines (stylesheet : String) (urls : List SitemapURL) : List String :=
  xmlDeclLine :: ((if stylesheet ≠ "" then [stylesheetPI stylesheet] else []) ++
    urlsetLines urls)

/-- `Sitemap` (src/sitemap.go): one index entry. -/
structure SitemapRef where
  loc : String
  lastMod : String
deriving DecidableEq, Repr

def sitemapRefLines (r : SitemapRef) : List String :=
  ["  <sitemap>", "    <loc>" ++ escapeXML r.loc ++ "</loc>"] ++
  (if r.lastMod = "" then []
   else ["    <lastmod>" ++ escapeXML r.lastMod ++ "</lastmod>"]) ++
  ["  </sitemap>"]

def sitemapindexLines (refs : List SitemapRef) : List String :=
  if refs = [] then ["<sitemapindex xmlns=\"" ++ sitemapXmlns ++ "\"></sitemapindex>"]
  else ("<sitemapindex xmlns=\"" ++ sitemapXmlns ++ "\">") ::
    ((refs.map sitemapRefLines).flatten ++ ["</sitemapindex>"])

/-- The sitemap index document content (src/sitemap.go lines 274-287). -/
def renderIndexLines (stylesheet : String) (refs : List SitemapRef) : List String :=
  xmlDeclLine :: ((if stylesheet ≠ "" then [stylesheetPI stylesheet] else []) ++
    sitemapindexLines refs)

/-! ## `Write` -/

/-- Decimal rendering of a natural number (`fmt.Sprintf("%d", ·)`),
with structural fuel (fuel = the number itself is always enough). -/
def natToCharsAux : Nat → Nat → List Char → List Char
  | _, 0, acc => acc
  | 0, _, acc => acc
  | fuel + 1, n + 1, acc =>
    natToCharsAux fuel ((n + 1) / 10) (digitChar ((n + 1) % 10) :: acc)

def natToString (n : Nat) : String :=
  if n = 0 then "0" else ⟨natToCharsAux n n []⟩

/-- The deterministic shard filename `sitemap_{i+1}.xml` for 0-based `i`. -/
def shardName (i : Nat) : String := "sitemap_" ++ natToString (i + 1) ++ ".xml"

/-- The URL-preparation loop of `Write` (src/sitemap.go lines 171-178):
resolve each entry in order, overwriting `Loc` in place; the first
unresolvable entry aborts, leaving it and later entries untouched. -/
def resolveURLs (baseURL : String) : List SitemapURL → List SitemapURL × Option String
  | [] => ([], none)
  | u :: rest =>
    match resolveURLAgainst baseURL u.loc with
    | none => (u :: rest, some "malformed URL")
    | some full =>
      let r := resolveURLs baseURL rest
      ({ u with loc := full } :: r.1, r.2)

/-- The shard loop of `writeSitemapIndex` (src/sitemap.go lines 252-272):
for each index, write `sitemap_{i+1}.xml` holding the slice
`URLs[i*MaxURLs : min((i+1)*MaxURLs, len)]`, then resolve the shard's URL
for the index entry (failing after the shard file is already written),
stamping the entry with today's date. -/
def writeShards (dir stylesheet baseSitemapURL : String) (urls : List SitemapURL)
    (m : Nat) (now : Instant) :
    List Nat → List (String × List String) × List SitemapRef × Option String
  | [] => ([], [], none)
  | i :: rest =>
    let name := shardName i
    let file := (pathJoin dir name,
                 renderURLSetLines stylesheet ((urls.drop (i * m)).take m))
    match resolveSitemapURL baseSitemapURL name with
    | none => ([file], [], some "malformed URL")
    | some u =>
      let r := writeShards dir stylesheet baseSitemapURL urls m now rest
      (file :: r.1, ⟨u, formatDate now.date⟩ :: r.2.1, r.2.2)

/-- The model file system: written files as (path, content lines), in write
order. -/
def fsLookup (fs : List (String × List String)) (p : String) : Option (List String) :=
  (fs.find? (fun f => f.1 == p)).map (·.2)

/-- `validateXMLFile` (src/sitemap.go lines 292-322): re-read the written
file (read failure is its own error), then hand the bytes to the
libxml2/XSD validation collaborator `v` together with the schema kind. -/
def validateXMLFile (fs : List (String × List String)) (p : String) (isIndex : Bool)
    (v : List String → Bool → Option String) : Option String :=
  match fsLookup fs p with
  | none => some "failed to read XML file for validation"
  | some content => v content isIndex

/-- Modelled: `encoding/xml.Unmarshal` into `SitemapIndex`, restricted to
documents of the shape this package writes — succeeds when a
`sitemapindex` root is present, collecting each `<loc>` child's text,
entity-decoded. -/
def extractLocLine (l : String) : Option String :=
  if l.data.take 9 = "    <loc>".data ∧
      l.data.drop (l.data.length - 6) = "</loc>".data ∧ 15 ≤ l.data.length then
    some (unescapeXML ⟨let m := l.data.drop 9; m.take (m.length - 6)⟩)
  else none

def unmarshalIndexLocs (content : List String) : Option (List String) :=
  if content.any (fun l => l.data.take 13 = "<sitemapindex".data) then
    some (content.filterMap extractLocLine)
  else none

/-- The shard-validation loop of `validateSitemapIndexAndFiles`
(src/sitemap.go lines 343-356): for each referenced location in index
order, parse it, take the basename of its path, and validate that file;
the first failure returns immediately.  The second component records the
`validateXMLFile` invocations actually made, in order. -/
def validateShardList (dir : String) (fs : List (String × List String))
    (v : List String → Bool → Option String) :
    List String → Option String × List (String × Bool)
  | [] => (none, [])
  | loc :: rest =>
    match parseURL loc with
    | none => (some "invalid sitemap URL", [])
    | some u =>
      let p := pathJoin dir (pathBase u.path)
      match validateXMLFile fs p false v with
      | some e => (some e, [(p, false)])
      | none =>
        let r := validateShardList dir fs v rest
        (r.1, (p, false) :: r.2)

/-- `validateSitemapIndexAndFiles` (src/sitemap.go lines 324-358): validate
the index file, re-read and unmarshal it, then validate every referenced
shard in order.  The second component is the trace of `validateXMLFile`
invocations. -/
def validateSitemapIndexAndFiles (dir : String) (fs : List (String × List String))
    (v : List String → Bool → Option String) : Option String × List (String × Bool) :=
  let indexPath := pathJoin dir "sitemap_index.xml"
  match validateXMLFile fs indexPath true v with
  | some e => (some e, [(indexPath, true)])
  | none =>
    match fsLookup fs indexPath with
    | none => (some "failed to read sitemap index for validation", [(indexPath, true)])
    | some content =>
      match unmarshalIndexLocs content with
      | none => (some "XML unmarshalling failed for sitemap index", [(indexPath, true)])
      | some locs =>
        let r := validateShardList dir fs v locs
        (r.1, (indexPath, true) :: r.2)

/-- Outcome of `Write`: the mutated receiver, the files written (in write
order) and the returned error, if any. -/
structure WriteResult where
  state : SitemapOptions
  files : List (String × List String)
  err : Option String
deriving Repr

/-- `Write` (src/sitemap.go lines 161-198): store the stylesheet, resolve
every entry's location in place, then either emit and validate the single
`sitemap.xml`, or emit the shards plus `sitemap_index.xml` and validate
index-then-shards.  Directory bootstrapping (`os.MkdirAll`) writes no
sitemap file and is outside the model. -/
def SitemapOptions.Write (s : SitemapOptions) (baseSitemapURL stylesheetURL : String)
    (now : Instant) (v : List String → Bool → Option String) : WriteResult :=
  let s1 := { s with stylesheet := stylesheetURL }
  let pr := resolveURLs s1.baseURL s1.urls
  let s2 := { s1 with urls := pr.1 }
  match pr.2 with
  | some e => ⟨s2, [], some e⟩
  | none =>
    if s2.urls.length ≤ s2.maxURLs then
      let p := pathJoin s2.dir "sitemap.xml"
      let file := (p, renderURLSetLines s2.stylesheet s2.urls)
      ⟨s2, [file], validateXMLFile [file] p false v⟩
    else
      let fileCount := (s2.urls.length + s2.maxURLs - 1) / s2.maxURLs
      let r := writeShards s2.dir s2.stylesheet baseSitemapURL s2.urls s2.maxURLs now
                 (List.range fileCount)
      match r.2.2 with
      | some e => ⟨s2, r.1, some e⟩
      | none =>
        let indexFile := (pathJoin s2.dir "sitemap_index.xml",
                          renderIndexLines s2.stylesheet r.2.1)
        let files := r.1 ++ [indexFile]
        ⟨s2, files, (validateSitemapIndexAndFiles s2.dir files v).1⟩

/-- Specification-side contract of the validation pass (spec §4.4): check
the listed (path, kind) pairs in the given order, stopping at and
surfacing the first failure, leaving the rest unchecked. -/
def scanChecks (fs : List (String × List String))
    (v : List String → Bool → Option String) :
    List (String × Bool) → Option String × List (String × Bool)
  | [] => (none, [])
  | (p, b) :: rest =>
    match validateXMLFile fs p b v with
    | some e => (some e, [(p, b)])
    | none =>
      let r := scanChecks fs v rest
      (r.1, (p, b) :: r.2)

/-- Whether a path contains a `.` or `..` segment (segments split on `/`),
with structural fuel (any fuel above the length is enough).
Used to state when remove_dot_segments is the identity. -/
def pathHasDotSegGo : Nat → List Char → Bool
  | 0, _ => false
  | fuel + 1, l =>
    let a := l.takeWhile notSlash
    if a = ['.'] ∨ a = ['.', '.'] then true
    else
      match l.dropWhile notSlash with
      | [] => false
      | _ :: t => pathHasDotSegGo fuel t

def pathHasDotSeg (l : List Char) : Bool := pathHasDotSegGo (l.length + 1) l

/-! # Theorems -/

theorem isDigitChar_digitChar (n : Nat) : isDigitChar (digitChar n) = true := by
  unfold digitChar
  repeat' split
  all_goals decide

theorem digitVal_digitChar (n : Nat) (h : n ≤ 9) : digitVal (digitChar n) = n := by
  interval_cases n <;> decide

theorem daysInMonth_le (y m : Nat) : daysInMonth y m ≤ 31 := by
  unfold daysInMonth
  repeat' split
  all_goals omega

theorem formatDate_data (d : CalDate) :
    (formatDate d).data = pad4 d.year ++ '-' :: (pad2 d.month ++ '-' :: pad2 d.day) := rfl

theorem formatDate_ne_empty (d : CalDate) : formatDate d ≠ "" := by
  intro h
  have := congrArg String.data h
  simp [formatDate_data, pad4, pad2] at this

/-- Parsing inverts formatting on valid dates with four-digit years (the
layout Go's `Format("2006-01-02")` emits). -/
theorem parseDate_formatDate (d : CalDate) (hv : validDate d = true)
    (hy : d.year ≤ 9999) : parseDate (formatDate d) = some d := by
  obtain ⟨y, m, dd⟩ := d
  simp only [validDate, Bool.and_eq_true, decide_eq_true_eq] at hv
  have hm : m ≤ 12 := hv.1.1.2
  have hdd : dd ≤ 31 := le_trans hv.2 (daysInMonth_le y m)
  have e4 : ∀ k, k ≤ 9999 →
      digitVal (digitChar (k / 1000 % 10)) * 1000 + digitVal (digitChar (k / 100 % 10)) * 100 +
        digitVal (digitChar (k / 10 % 10)) * 10 + digitVal (digitChar (k % 10)) = k := by
    intro k hk
    rw [digitVal_digitChar _ (by omega), digitVal_digitChar _ (by omega),
        digitVal_digitChar _ (by omega), digitVal_digitChar _ (by omega)]
    omega
  have e2 : ∀ k, k ≤ 99 →
      digitVal (digitChar (k / 10 % 10)) * 10 + digitVal (digitChar (k % 10)) = k := by
    intro k hk
    rw [digitVal_digitChar _ (by omega), digitVal_digitChar _ (by omega)]
    omega
  have hy' := e4 y hy
  have hm' := e2 m (by omega)
  have hd' := e2 dd (by omega)
  simp only [parseDate, formatDate_data, pad4, pad2, List.cons_append, List.nil_append]
  rw [if_pos]
  · rw [hy', hm', hd']
    rw [if_pos]
    simp only [validDate, Bool.and_eq_true, decide_eq_true_eq]
    exact hv
  · refine ⟨trivial, trivial, ?_, ?_, ?_, ?_, ?_, ?_, ?_, ?_⟩ <;> exact isDigitChar_digitChar _

/-- The code's instant comparison against a parsed midnight coincides with
strict calendar-date comparison, for any time of day below 86400s. -/
theorem timeAfter_midnight (d : CalDate) (now : Instant)
    (htod : now.secondOfDay < 86400) :
    timeAfter ⟨d, 0⟩ now = decide (dateOrd now.date < dateOrd d) := by
  simp only [timeAfter, instantOrd]
  by_cases h : dateOrd now.date < dateOrd d
  · simp [h]
    omega
  · simp [h]
    omega

/-- C3: `AddURL` appends the entry unchanged except for `lastModified`:
empty → today's UTC date; unparseable as a `YYYY-MM-DD` calendar date or
strictly after today's date → today's UTC date; otherwise the
caller-supplied value verbatim. -/
theorem C3_addURL_lastMod (s : SitemapOptions) (u : SitemapURL) (now : Instant)
    (htod : now.secondOfDay < 86400) :
    ∃ nu : SitemapURL,
      (AddURL s u now).urls = s.urls ++ [nu] ∧
      nu.loc = u.loc ∧ nu.changeFreq = u.changeFreq ∧ nu.priority = u.priority ∧
      (u.lastMod = "" → nu.lastMod = formatDate now.date) ∧
      (u.lastMod ≠ "" → parseDate u.lastMod = none → nu.lastMod = formatDate now.date) ∧
      (∀ d, parseDate u.lastMod = some d → dateOrd now.date < dateOrd d →
        nu.lastMod = formatDate now.date) ∧
      (∀ d, parseDate u.lastMod = some d → dateOrd d ≤ dateOrd now.date →
        nu.lastMod = u.lastMod) := by
  refine ⟨{ u with lastMod := normalizeLastMod u.lastMod now }, rfl, rfl, rfl, rfl,
    ?_, ?_, ?_, ?_⟩
  · intro he
    simp [normalizeLastMod, he]
  · intro hne hp
    simp [normalizeLastMod, hne, hp]
  · intro d hp hlt
    simp only [normalizeLastMod, hp]
    rw [timeAfter_midnight d now htod]
    simp [hlt]
  · intro d hp hle
    simp only [normalizeLastMod, hp]
    rw [timeAfter_midnight d now htod]
    simp [Nat.not_lt.mpr hle]
    intro he
    rw [he] at hp
    simp [parseDate] at hp

/-- C3 witness: the test scenario — `lastmod = "invalid-da…"` is replaced
with the current UTC date, the other fields are untouched. -/
theorem C3_addURL_lastMod_witness :
    (AddURL (NewSitemapOptions "./d" "https://www.example.com")
        ⟨"/about", "invalid-date", "monthly", "0.8"⟩
        ⟨⟨2025, 10, 11⟩, 3600⟩).urls
      = [⟨"/about", "2025-10-11", "monthly", "0.8"⟩] := by
  obtain ⟨nu, h1, h2, h3, h4, h5, h6, h7, h8⟩ :=
    C3_addURL_lastMod (NewSitemapOptions "./d" "https://www.example.com")
      ⟨"/about", "invalid-date", "monthly", "0.8"⟩
      ⟨⟨2025, 10, 11⟩, 3600⟩ (by decide)
  have hlm : nu.lastMod = formatDate ⟨2025, 10, 11⟩ := h6 (by decide) (by decide)
  rw [h1]
  obtain ⟨a, b, c, d⟩ := nu
  simp only at h2 h3 h4 hlm
  rw [h2, h3, h4, hlm]
  rfl

/-- C4: the date-defaulting step is idempotent — re-normalising an
already-normalised `lastModified` at any moment of the same UTC day is a
no-op (in particular a valid past date is preserved verbatim). -/
theorem C4_normalizeLastMod_idempotent (lm : String) (now now2 : Instant)
    (hd : now2.date = now.date) (htod : now.secondOfDay < 86400)
    (hv : validDate now.date = true) (hy : now.date.year ≤ 9999) :
    normalizeLastMod (normalizeLastMod lm now) now2 = normalizeLastMod lm now := by
  have hta2 : timeAfter ⟨now.date, 0⟩ now2 = false := by
    simp only [timeAfter, instantOrd, hd]
    simp
  have hself : normalizeLastMod (formatDate now.date) now2 = formatDate now.date := by
    simp [normalizeLastMod, formatDate_ne_empty now.date,
      parseDate_formatDate now.date hv hy, hta2]
  by_cases he : lm = ""
  · have h0 : normalizeLastMod lm now = formatDate now.date := by
      simp [normalizeLastMod, he]
    rw [h0]
    exact hself
  · cases hp : parseDate lm with
    | none =>
      have h0 : normalizeLastMod lm now = formatDate now.date := by
        simp [normalizeLastMod, he, hp]
      rw [h0]
      exact hself
    | some d =>
      by_cases haft : timeAfter ⟨d, 0⟩ now = true
      · have h0 : normalizeLastMod lm now = formatDate now.date := by
          simp [normalizeLastMod, he, hp, haft]
        rw [h0]
        exact hself
      · rw [Bool.not_eq_true] at haft
        have h0 : normalizeLastMod lm now = lm := by
          simp [normalizeLastMod, he, hp, haft]
        rw [h0]
        have h2 : timeAfter ⟨d, 0⟩ now2 = false := by
          simp only [timeAfter, instantOrd, hd] at haft ⊢
          simp at haft ⊢
          omega
        simp [normalizeLastMod, he, hp, h2]

/-- C4 witness: a valid past date survives two normalisations at two
moments of the same day. -/
theorem C4_normalizeLastMod_idempotent_witness :
    normalizeLastMod (normalizeLastMod "2023-10-25" ⟨⟨2025, 10, 11⟩, 3600⟩)
        ⟨⟨2025, 10, 11⟩, 7200⟩
      = normalizeLastMod "2023-10-25" ⟨⟨2025, 10, 11⟩, 3600⟩ :=
  C4_normalizeLastMod_idempotent "2023-10-25" ⟨⟨2025, 10, 11⟩, 3600⟩
    ⟨⟨2025, 10, 11⟩, 7200⟩ rfl (by decide) (by decide) (by decide)

theorem cutList_of_not_mem (sep : Char) (l : List Char) (h : sep ∉ l) :
    cutList sep l = (l, [], false) := by
  induction l with
  | nil => rfl
  | cons c cs ih =>
    simp only [List.mem_cons, not_or] at h
    simp [cutList, Ne.symm h.1, ih h.2]

theorem contains_eq_false (l : List Char) (a : Char) (h : ∀ c ∈ l, c ≠ a) :
    l.contains a = false := by
  induction l with
  | nil => rfl
  | cons c cs ih =>
    simp only [List.contains_cons, Bool.or_eq_false_iff]
    constructor
    · simpa using (h c (List.mem_cons_self c cs)).symm
    · exact ih fun c hc => h c (List.mem_cons_of_mem _ hc)

theorem cutList_spec (sep : Char) (l : List Char) :
    sep ∉ (cutList sep l).1 ∧
      ((cutList sep l).2.2 = true →
        l = (cutList sep l).1 ++ sep :: (cutList sep l).2.1) ∧
      ((cutList sep l).2.2 = false →
        (cutList sep l).1 = l ∧ (cutList sep l).2.1 = []) := by
  induction l with
  | nil => refine ⟨by simp [cutList], by simp [cutList], by simp [cutList]⟩
  | cons c cs ih =>
    by_cases hc : c = sep
    · subst hc
      refine ⟨?_, ?_, ?_⟩ <;> simp [cutList]
    · obtain ⟨ih1, ih2, ih3⟩ := ih
      refine ⟨?_, ?_, ?_⟩
      · simp only [cutList, if_neg hc]
        intro hm
        rcases List.mem_cons.mp hm with h1 | h1
        · exact hc h1.symm
        · exact ih1 h1
      · simp only [cutList, if_neg hc]
        intro ht
        rw [List.cons_append]
        exact congrArg (c :: ·) (ih2 ht)
      · simp only [cutList, if_neg hc]
        intro ht
        exact ⟨congrArg (c :: ·) (ih3 ht).1, (ih3 ht).2⟩

/-- The first component of a successful `cutList` is drawn from the input,
as is the second. -/
theorem cutList_subsets (sep : Char) (l : List Char) :
    (∀ c ∈ (cutList sep l).1, c ∈ l) ∧ (∀ c ∈ (cutList sep l).2.1, c ∈ l) := by
  obtain ⟨-, h2, h3⟩ := cutList_spec sep l
  rcases hb : (cutList sep l).2.2 with _ | _
  · obtain ⟨e1, e2⟩ := h3 hb
    constructor
    · intro c hc; rw [e1] at hc; exact hc
    · intro c hc; rw [e2] at hc; exact absurd hc (by simp)
  · have he := h2 hb
    constructor
    · intro c hc; rw [he]; exact List.mem_append.mpr (Or.inl hc)
    · intro c hc; rw [he]; exact List.mem_append.mpr (Or.inr (by simp [hc]))


theorem getSchemeAux_no_colon (orig : String) (l : List Char)
    (h : ∀ c ∈ l, c ≠ ':') : ∀ i, getSchemeAux orig l i = some ("", orig) := by
  induction l with
  | nil => intro i; rfl
  | cons c cs ih =>
    intro i
    have hc : c ≠ ':' := h c (List.mem_cons_self c cs)
    have hcs : ∀ x ∈ cs, x ≠ ':' := fun x hx => h x (List.mem_cons_of_mem _ hx)
    simp only [getSchemeAux]
    split
    · exact ih hcs (i + 1)
    · split
      · split
        · rfl
        · exact ih hcs (i + 1)
      · simp [hc]

/-- `url.Parse` on a plain relative filename (no slash, colon, query or
fragment characters): the whole string becomes the path. -/
theorem parseURL_simple_relative (s : String)
    (hall : s.data.all allowedURLChar = true)
    (hhead : s.data.head? ≠ some '/')
    (hnc : ∀ c ∈ s.data, c ≠ ':' ∧ c ≠ '/' ∧ c ≠ '?' ∧ c ≠ '#') :
    parseURL s = some { path := s } := by
  have hhash : ('#' : Char) ∉ s.data := fun hm => (hnc _ hm).2.2.2 rfl
  have hq : ('?' : Char) ∉ s.data := fun hm => (hnc _ hm).2.2.1 rfl
  have hpas : parseAfterScheme "" s.data = some { path := (⟨s.data⟩ : String) } := by
    have hql : s.data.getLast? ≠ some '?' := fun hl => hq (List.mem_of_mem_getLast? hl)
    have hcut : cutList '?' s.data = (s.data, [], false) := cutList_of_not_mem _ _ hq
    simp [parseAfterScheme, hcut, eq_false hql, eq_false hhead]
    intro hc
    exact (hnc ':' ((List.takeWhile_sublist _).mem hc)).1 rfl
  have hgs : getScheme ⟨s.data⟩ = some ("", ⟨s.data⟩) :=
    getSchemeAux_no_colon _ _ (fun c hc => (hnc c hc).1) 0
  simp only [parseURL, cutList_of_not_mem _ _ hhash]
  rw [if_neg (by simp [hall])]
  rw [hgs]
  simp only
  have hlow : lowerStr "" = "" := rfl
  rw [hlow]
  rw [show (⟨s.data⟩ : String).data = s.data from rfl, hpas]

theorem natToCharsAux_digits (fuel : Nat) :
    ∀ (n : Nat) (acc : List Char), (∀ c ∈ acc, isDigitChar c = true) →
      ∀ c ∈ natToCharsAux fuel n acc, isDigitChar c = true := by
  induction fuel with
  | zero =>
    intro n acc hacc c hc
    match n with
    | 0 => exact hacc c hc
    | m + 1 => exact hacc c hc
  | succ f ih =>
    intro n acc hacc c hc
    match n with
    | 0 => exact hacc c hc
    | m + 1 =>
      rw [natToCharsAux] at hc
      refine ih ((m + 1) / 10) _ ?_ c hc
      intro x hx
      rcases List.mem_cons.mp hx with h1 | h2
      · rw [h1]; exact isDigitChar_digitChar _
      · exact hacc x h2

theorem natToString_digits (n : Nat) :
    ∀ c ∈ (natToString n).data, isDigitChar c = true := by
  unfold natToString
  split
  · decide
  · exact natToCharsAux_digits n n [] (by simp)

theorem digit_char_props (c : Char) (h : isDigitChar c = true) :
    allowedURLChar c = true ∧ c ≠ ':' ∧ c ≠ '/' ∧ c ≠ '?' ∧ c ≠ '#' := by
  refine ⟨by simp [allowedURLChar, h], ?_, ?_, ?_, ?_⟩ <;>
    (intro he; subst he; simp [isDigitChar] at h)

theorem shardName_data (i : Nat) :
    (shardName i).data =
      "sitemap_".data ++ (natToString (i + 1)).data ++ ".xml".data := by
  simp [shardName, String.data_append]

theorem shardName_char_facts (i : Nat) :
    (∀ c ∈ (shardName i).data, allowedURLChar c = true) ∧
    (∀ c ∈ (shardName i).data, c ≠ ':' ∧ c ≠ '/' ∧ c ≠ '?' ∧ c ≠ '#') := by
  constructor <;>
  · intro c hc
    rw [shardName_data, List.append_assoc] at hc
    rcases List.mem_append.mp hc with h1 | h2
    · fin_cases h1 <;> decide
    · rcases List.mem_append.mp h2 with h3 | h4
      · have := natToString_digits (i + 1) c h3
        first
        | exact (digit_char_props c this).1
        | exact (digit_char_props c this).2
      · fin_cases h4 <;> decide

theorem parseURL_shardName (i : Nat) :
    parseURL (shardName i) = some { path := shardName i } := by
  have hf := shardName_char_facts i
  apply parseURL_simple_relative
  · simp only [List.all_eq_true]
    intro c hc
    exact hf.1 c hc
  · rw [shardName_data]
    simp
  · exact hf.2

theorem resolveSitemapURL_shardName (bs : String) (b : GoURL)
    (hbs : parseURL (trimRightSlashes bs ++ "/") = some b) (i : Nat) :
    resolveSitemapURL bs (shardName i) =
      some (urlString (resolveReference b { path := shardName i })) := by
  simp [resolveSitemapURL, resolveURLAgainst, hbs, parseURL_shardName i]

/-- Successful in-place resolution: with every location resolvable, the
preparation loop of `Write` maps each entry to its resolved form and
reports no error. -/
theorem resolveURLs_ok (b : String) (l : List SitemapURL)
    (h : ∀ u ∈ l, (resolveURLAgainst b u.loc).isSome) :
    resolveURLs b l =
      (l.map (fun u => { u with loc := (resolveURLAgainst b u.loc).getD "" }), none) := by
  induction l with
  | nil => rfl
  | cons u rest ih =>
    obtain ⟨full, hfull⟩ := Option.isSome_iff_exists.mp (h u (List.mem_cons_self u rest))
    simp only [resolveURLs, hfull, ih fun x hx => h x (List.mem_cons_of_mem _ hx)]
    simp [hfull]

theorem writeShards_ok (dir ss bs : String) (urls : List SitemapURL) (m : Nat)
    (now : Instant) (b : GoURL)
    (hbs : parseURL (trimRightSlashes bs ++ "/") = some b) (idxs : List Nat) :
    writeShards dir ss bs urls m now idxs =
      (idxs.map (fun i => (pathJoin dir (shardName i),
         renderURLSetLines ss ((urls.drop (i * m)).take m))),
       idxs.map (fun i =>
         ⟨urlString (resolveReference b { path := shardName i }), formatDate now.date⟩),
       none) := by
  induction idxs with
  | nil => rfl
  | cons i rest ih =>
    simp only [writeShards, resolveSitemapURL_shardName bs b hbs i, ih]
    simp

/-- Ceiling division, characterised: for `0 < n`,
`(n + m - 1) / m = (n - 1) / m + 1`, and that value `fc` satisfies
`m * (fc - 1) < n ≤ m * fc`. -/
theorem ceilDiv_succ (n m : Nat) (hm : 0 < m) (hn : 0 < n) :
    (n + m - 1) / m = (n - 1) / m + 1 := by
  have : n + m - 1 = (n - 1) + m := by omega
  rw [this, Nat.add_div_right _ hm]

theorem ceilDiv_bounds (n m : Nat) (hm : 0 < m) (hn : 0 < n) :
    m * ((n + m - 1) / m - 1) < n ∧ n ≤ m * ((n + m - 1) / m) := by
  rw [ceilDiv_succ n m hm hn]
  constructor
  · simp only [Nat.add_sub_cancel]
    have := Nat.mul_div_le (n - 1) m
    omega
  · have := Nat.lt_mul_div_succ (n - 1) hm
    calc n = (n - 1) + 1 := by omega
    _ ≤ m * ((n - 1) / m + 1) := by omega

/-- Taking `ceil(length/m)` consecutive chunks of size `m` and
concatenating them reproduces the list. -/
theorem range_chunks_flatten {α : Type} (m : Nat) (hm : 0 < m) :
    ∀ (n : Nat) (l : List α), l.length = n →
      ((List.range ((l.length + m - 1) / m)).map
        (fun i => (l.drop (i * m)).take m)).flatten = l := by
  intro n
  induction n using Nat.strong_induction_on with
  | _ n ih =>
    intro l hn
    by_cases h0 : l.length = 0
    · have hl : l = [] := List.length_eq_zero.mp h0
      subst hl
      have : (0 + m - 1) / m = 0 := Nat.div_eq_of_lt (by omega)
      simp [this]
    · have hpos : 0 < l.length := by omega
      rw [ceilDiv_succ _ m hm hpos, List.range_succ_eq_map]
      simp only [List.map_cons, List.flatten_cons, Nat.zero_mul, List.drop_zero,
        List.map_map]
      have hdrop : ∀ i : Nat, l.drop ((i + 1) * m) = (l.drop m).drop (i * m) := by
        intro i
        rw [List.drop_drop]
        congr 1
        ring
      by_cases hle : l.length ≤ m
      · have hk : (l.length - 1) / m = 0 := Nat.div_eq_of_lt (by omega)
        rw [hk]
        simp only [List.range_zero, List.map_nil, List.flatten_nil, List.append_nil]
        exact List.take_of_length_le hle
      · have hlen' : (l.drop m).length = l.length - m := by simp
        have hk : (l.length - 1) / m = ((l.drop m).length + m - 1) / m := by
          rw [hlen']
          have h1 : (l.length - m) + m - 1 = l.length - 1 := by omega
          rw [h1]
        rw [hk]
        have ihm := ih (l.drop m).length (by simp; omega) (l.drop m) rfl
        have hmap : (List.range (((l.drop m).length + m - 1) / m)).map
            ((fun i => (l.drop (i * m)).take m) ∘ Nat.succ)
            = (List.range (((l.drop m).length + m - 1) / m)).map
                (fun i => ((l.drop m).drop (i * m)).take m) := by
          apply List.map_congr_left
          intro i hi
          simp only [Function.comp_apply]
          rw [show Nat.succ i = i + 1 from rfl, hdrop i]
        rw [hmap, ihm]
        exact List.take_append_drop m l

/-- After a fully successful resolution pass, `Write`'s returned state has
the stylesheet stored and every entry's `Loc` overwritten in place. -/
theorem write_state_eq (s : SitemapOptions) (bs ss : String) (now : Instant)
    (v : List String → Bool → Option String)
    (hbase : ∀ u ∈ s.urls, (resolveURLAgainst s.baseURL u.loc).isSome) :
    (s.Write bs ss now v).state =
      { s with stylesheet := ss,
               urls := s.urls.map (fun u =>
                 { u with loc := (resolveURLAgainst s.baseURL u.loc).getD "" }) } := by
  have hres := resolveURLs_ok s.baseURL s.urls hbase
  simp only [SitemapOptions.Write, hres]
  split
  · simp
  · split <;> simp

theorem write_files_single (s : SitemapOptions) (bs ss : String) (now : Instant)
    (v : List String → Bool → Option String)
    (hbase : ∀ u ∈ s.urls, (resolveURLAgainst s.baseURL u.loc).isSome)
    (hle : s.urls.length ≤ s.maxURLs) :
    (s.Write bs ss now v).files =
      [(pathJoin s.dir "sitemap.xml",
        renderURLSetLines ss (resolveURLs s.baseURL s.urls).1)] := by
  have hres := resolveURLs_ok s.baseURL s.urls hbase
  simp only [SitemapOptions.Write, hres]
  rw [if_pos (by simpa using hle)]

theorem write_files_indexed (s : SitemapOptions) (bs ss : String) (now : Instant)
    (v : List String → Bool → Option String) (b : GoURL)
    (hbase : ∀ u ∈ s.urls, (resolveURLAgainst s.baseURL u.loc).isSome)
    (hbs : parseURL (trimRightSlashes bs ++ "/") = some b)
    (hn : s.maxURLs < s.urls.length) :
    (s.Write bs ss now v).files =
      (List.range ((s.urls.length + s.maxURLs - 1) / s.maxURLs)).map (fun i =>
        (pathJoin s.dir (shardName i),
         renderURLSetLines ss
           (((resolveURLs s.baseURL s.urls).1.drop (i * s.maxURLs)).take s.maxURLs)))
      ++ [(pathJoin s.dir "sitemap_index.xml",
           renderIndexLines ss
             ((List.range ((s.urls.length + s.maxURLs - 1) / s.maxURLs)).map (fun i =>
               ⟨urlString (resolveReference b { path := shardName i }),
                formatDate now.date⟩)))] := by
  have hres := resolveURLs_ok s.baseURL s.urls hbase
  simp only [SitemapOptions.Write, hres]
  rw [if_neg (by simpa using Nat.not_le.mpr hn)]
  rw [writeShards_ok _ _ _ _ _ _ b hbs]
  simp [hres]

/-- C1: with a positive `MaxURLs` and resolvable URLs, `Write` produces the
single file `sitemap.xml` holding all entries exactly when
`len(entries) ≤ MaxURLs`, and otherwise the shard files
`sitemap_1.xml` … `sitemap_N.xml` (`N = ceil(n / MaxURLs)`, characterised
by `MaxURLs*(N-1) < n ≤ MaxURLs*N`) followed by the single index file
`sitemap_index.xml`. -/
theorem C1_write_layout (s : SitemapOptions) (bs ss : String) (now : Instant)
    (v : List String → Bool → Option String) (b : GoURL)
    (hbase : ∀ u ∈ s.urls, (resolveURLAgainst s.baseURL u.loc).isSome)
    (hm : 0 < s.maxURLs)
    (hbs : parseURL (trimRightSlashes bs ++ "/") = some b) :
    (s.urls.length ≤ s.maxURLs →
      (s.Write bs ss now v).files =
        [(pathJoin s.dir "sitemap.xml",
          renderURLSetLines ss (resolveURLs s.baseURL s.urls).1)] ∧
      (resolveURLs s.baseURL s.urls).1.length = s.urls.length) ∧
    (s.maxURLs < s.urls.length →
      (s.Write bs ss now v).files.map Prod.fst =
        (List.range ((s.urls.length + s.maxURLs - 1) / s.maxURLs)).map
          (fun i => pathJoin s.dir (shardName i)) ++
          [pathJoin s.dir "sitemap_index.xml"] ∧
      s.maxURLs * ((s.urls.length + s.maxURLs - 1) / s.maxURLs - 1) < s.urls.length ∧
      s.urls.length ≤ s.maxURLs * ((s.urls.length + s.maxURLs - 1) / s.maxURLs)) := by
  have hres := resolveURLs_ok s.baseURL s.urls hbase
  constructor
  · intro hle
    refine ⟨write_files_single s bs ss now v hbase hle, ?_⟩
    rw [hres]
    simp
  · intro hn
    refine ⟨?_, ceilDiv_bounds s.urls.length s.maxURLs hm (by omega)⟩
    rw [write_files_indexed s bs ss now v b hbase hbs hn]
    simp

/-- C1 witness: 3 entries with `MaxURLs = 2` produce `sitemap_1.xml`,
`sitemap_2.xml` and `sitemap_index.xml`; 2 entries produce `sitemap.xml`. -/
theorem C1_write_layout_witness :
    (({ maxFileSize := 52428800, maxURLs := 2, dir := "out",
        baseURL := "https://www.example.com",
        urls := [⟨"/", "2023-10-25", "daily", "1.0"⟩,
                 ⟨"/about", "2023-10-25", "monthly", "0.8"⟩,
                 ⟨"/p/0", "2023-10-25", "weekly", "0.5"⟩],
        stylesheet := "" } : SitemapOptions).Write
        "https://www.example.com" "" ⟨⟨2025, 10, 11⟩, 0⟩
        (fun _ _ => none)).files.map Prod.fst =
      ["out/sitemap_1.xml", "out/sitemap_2.xml", "out/sitemap_index.xml"] := by
  have h := (C1_write_layout
    { maxFileSize := 52428800, maxURLs := 2, dir := "out",
      baseURL := "https://www.example.com",
      urls := [⟨"/", "2023-10-25", "daily", "1.0"⟩,
               ⟨"/about", "2023-10-25", "monthly", "0.8"⟩,
               ⟨"/p/0", "2023-10-25", "weekly", "0.5"⟩],
      stylesheet := "" }
    "https://www.example.com" "" ⟨⟨2025, 10, 11⟩, 0⟩ (fun _ _ => none)
    { scheme := "https", host := "www.example.com", path := "/" }
    (by decide) (by decide) (by decide)).2 (by decide)
  rw [h.1]
  decide

/-- C2: in the indexed case, shard `i` (0-based) is exactly the slice
`entries[i*MaxURLs : min((i+1)*MaxURLs, n)]` of the (resolved) entry list,
and concatenating the shard slices in filename order reproduces that list
with nothing duplicated or dropped. -/
theorem C2_shard_partition (s : SitemapOptions) (bs ss : String) (now : Instant)
    (v : List String → Bool → Option String) (b : GoURL)
    (hbase : ∀ u ∈ s.urls, (resolveURLAgainst s.baseURL u.loc).isSome)
    (hm : 0 < s.maxURLs)
    (hbs : parseURL (trimRightSlashes bs ++ "/") = some b)
    (hn : s.maxURLs < s.urls.length) :
    (s.Write bs ss now v).files =
      (List.range ((s.urls.length + s.maxURLs - 1) / s.maxURLs)).map (fun i =>
        (pathJoin s.dir (shardName i),
         renderURLSetLines ss
           (((resolveURLs s.baseURL s.urls).1.drop (i * s.maxURLs)).take s.maxURLs)))
      ++ [(pathJoin s.dir "sitemap_index.xml",
           renderIndexLines ss
             ((List.range ((s.urls.length + s.maxURLs - 1) / s.maxURLs)).map (fun i =>
               ⟨urlString (resolveReference b { path := shardName i }),
                formatDate now.date⟩)))] ∧
    ((List.range ((s.urls.length + s.maxURLs - 1) / s.maxURLs)).map (fun i =>
        ((resolveURLs s.baseURL s.urls).1.drop (i * s.maxURLs)).take s.maxURLs)).flatten
      = (resolveURLs s.baseURL s.urls).1 ∧
    (resolveURLs s.baseURL s.urls).1.length = s.urls.length := by
  have hres := resolveURLs_ok s.baseURL s.urls hbase
  have hlen : (resolveURLs s.baseURL s.urls).1.length = s.urls.length := by
    rw [hres]; simp
  refine ⟨write_files_indexed s bs ss now v b hbase hbs hn, ?_, hlen⟩
  have := range_chunks_flatten s.maxURLs hm (resolveURLs s.baseURL s.urls).1.length
    (resolveURLs s.baseURL s.urls).1 rfl
  rwa [hlen] at this

/-- C2 witness: with `MaxURLs = 2` and 3 entries, the two shard slices are
the first two and the last entry, and their concatenation is the resolved
entry list. -/
theorem C2_shard_partition_witness :
    ((List.range ((3 + 2 - 1) / 2)).map (fun i =>
        ((resolveURLs "https://www.example.com"
            [⟨"/", "2023-10-25", "daily", "1.0"⟩,
             ⟨"/about", "2023-10-25", "monthly", "0.8"⟩,
             ⟨"/p/0", "2023-10-25", "weekly", "0.5"⟩]).1.drop (i * 2)).take 2)).flatten
      = (resolveURLs "https://www.example.com"
          [⟨"/", "2023-10-25", "daily", "1.0"⟩,
           ⟨"/about", "2023-10-25", "monthly", "0.8"⟩,
           ⟨"/p/0", "2023-10-25", "weekly", "0.5"⟩]).1 := by
  have h := C2_shard_partition
    { maxFileSize := 52428800, maxURLs := 2, dir := "out",
      baseURL := "https://www.example.com",
      urls := [⟨"/", "2023-10-25", "daily", "1.0"⟩,
               ⟨"/about", "2023-10-25", "monthly", "0.8"⟩,
               ⟨"/p/0", "2023-10-25", "weekly", "0.5"⟩],
      stylesheet := "" }
    "https://www.example.com" "" ⟨⟨2025, 10, 11⟩, 0⟩ (fun _ _ => none)
    { scheme := "https", host := "www.example.com", path := "/" }
    (by decide) (by decide) (by decide) (by decide)
  exact h.2.1

/-- The preparation loop reports the malformed-URL failure whenever some
entry's location fails to parse, or the base fails to parse and there is
at least one entry to resolve against it. -/
theorem resolveURLs_err (b : String) (l : List SitemapURL)
    (h : (∃ u ∈ l, parseURL u.loc = none) ∨ (parseURL b = none ∧ l ≠ [])) :
    (resolveURLs b l).2 = some "malformed URL" := by
  induction l with
  | nil =>
    rcases h with ⟨u, hu, _⟩ | ⟨_, hne⟩
    · exact absurd hu (List.not_mem_nil u)
    · exact absurd rfl hne
  | cons u rest ih =>
    cases hr : resolveURLAgainst b u.loc with
    | none => simp [resolveURLs, hr]
    | some full =>
      have hbase : parseURL b ≠ none := by
        intro hb
        simp [resolveURLAgainst, hb] at hr
      have hu : parseURL u.loc ≠ none := by
        intro hl
        rcases hp : parseURL b with _ | bb
        · exact hbase hp
        · simp [resolveURLAgainst, hp, hl] at hr
      simp only [resolveURLs, hr]
      rcases h with ⟨w, hw, hwn⟩ | ⟨hb, _⟩
      · rcases List.mem_cons.mp hw with h1 | h2
        · subst h1; exact absurd hwn hu
        · simpa using ih (Or.inl ⟨w, h2, hwn⟩)
      · exact absurd hb hbase

/-- C6 counterexample: the claim fails as stated.  `url.Parse(":")` fails
("missing protocol scheme"), yet `Write` with base URL `":"` and an empty
entry list never parses the base: it writes `sitemap.xml` and returns no
malformed-URL error. -/
theorem C6_counterexample :
    parseURL ":" = none ∧
    (({ maxFileSize := 52428800, maxURLs := 33333, dir := "out", baseURL := ":",
        urls := [], stylesheet := "" } : SitemapOptions).Write
        "https://www.example.com" "" ⟨⟨2025, 10, 11⟩, 0⟩ (fun _ _ => none)).files
      = [("out/sitemap.xml",
          ["<?xml version=\"1.0\" encoding=\"UTF-8\"?>",
           "<urlset xmlns=\"http://www.sitemaps.org/schemas/sitemap/0.9\"></urlset>"])] ∧
    (({ maxFileSize := 52428800, maxURLs := 33333, dir := "out", baseURL := ":",
        urls := [], stylesheet := "" } : SitemapOptions).Write
        "https://www.example.com" "" ⟨⟨2025, 10, 11⟩, 0⟩ (fun _ _ => none)).err
      = none := by
  refine ⟨by decide, by decide, by decide⟩

/-- C6 (amended): if any entry's location cannot be parsed as a URL — or
the base URL cannot be parsed and the entry list is nonempty — `Write`
returns a malformed-URL error and aborts before any file is written; with
an empty entry list the base URL is never consulted. -/
theorem C6_amended_malformed_aborts (s : SitemapOptions) (bs ss : String)
    (now : Instant) (v : List String → Bool → Option String)
    (h : (∃ u ∈ s.urls, parseURL u.loc = none) ∨
         (parseURL s.baseURL = none ∧ s.urls ≠ [])) :
    (s.Write bs ss now v).err = some "malformed URL" ∧
    (s.Write bs ss now v).files = [] := by
  have herr := resolveURLs_err s.baseURL s.urls h
  rcases hpr : resolveURLs s.baseURL s.urls with ⟨resolved, e⟩
  rw [hpr] at herr
  simp only at herr
  subst herr
  constructor <;> simp [SitemapOptions.Write, hpr]

/-- C6 witness: one entry whose location `":"` fails to parse makes
`Write` abort with the malformed-URL error and write nothing. -/
theorem C6_amended_malformed_aborts_witness :
    (({ maxFileSize := 52428800, maxURLs := 33333, dir := "out",
        baseURL := "https://www.example.com",
        urls := [⟨":", "2023-10-25", "daily", "1.0"⟩],
        stylesheet := "" } : SitemapOptions).Write
        "https://www.example.com" "" ⟨⟨2025, 10, 11⟩, 0⟩ (fun _ _ => none)).err
      = some "malformed URL" ∧
    (({ maxFileSize := 52428800, maxURLs := 33333, dir := "out",
        baseURL := "https://www.example.com",
        urls := [⟨":", "2023-10-25", "daily", "1.0"⟩],
        stylesheet := "" } : SitemapOptions).Write
        "https://www.example.com" "" ⟨⟨2025, 10, 11⟩, 0⟩ (fun _ _ => none)).files
      = [] :=
  C6_amended_malformed_aborts _ "https://www.example.com" "" ⟨⟨2025, 10, 11⟩, 0⟩
    (fun _ _ => none) (Or.inl ⟨⟨":", "2023-10-25", "daily", "1.0"⟩, by decide, by decide⟩)

/-- C10: `Write` mutates the stored entry list in place — each entry's
`Loc` is overwritten with its base-resolved absolute URL while `LastMod`,
`ChangeFreq` and `Priority` are untouched — and a second `Write` on the
returned options re-resolves those already-resolved locations, not the
originals. -/
theorem C10_write_frame (s : SitemapOptions) (bs ss : String) (now : Instant)
    (v : List String → Bool → Option String)
    (hbase : ∀ u ∈ s.urls, (resolveURLAgainst s.baseURL u.loc).isSome) :
    (s.Write bs ss now v).state.urls =
      s.urls.map (fun u =>
        { u with loc := (resolveURLAgainst s.baseURL u.loc).getD "" }) ∧
    (s.Write bs ss now v).state.baseURL = s.baseURL ∧
    ∀ (bs2 ss2 : String) (now2 : Instant) (v2 : List String → Bool → Option String),
      (∀ u ∈ (s.Write bs ss now v).state.urls,
        (resolveURLAgainst s.baseURL u.loc).isSome) →
      ((s.Write bs ss now v).state.Write bs2 ss2 now2 v2).state.urls =
        (s.Write bs ss now v).state.urls.map (fun u =>
          { u with loc := (resolveURLAgainst s.baseURL u.loc).getD "" }) := by
  have h1 := write_state_eq s bs ss now v hbase
  refine ⟨by rw [h1], by rw [h1], ?_⟩
  intro bs2 ss2 now2 v2 h2
  have hb2 : (s.Write bs ss now v).state.baseURL = s.baseURL := by rw [h1]
  have hinner := write_state_eq (s.Write bs ss now v).state bs2 ss2 now2 v2
    (by rw [hb2]; exact h2)
  rw [hinner]
  simp only [hb2]

/-- C10 witness: a relative location is overwritten in place with its
absolute resolution, the other fields verbatim; a second `Write` leaves
the (now absolute, dot-free) location fixed. -/
theorem C10_write_frame_witness :
    (({ maxFileSize := 52428800, maxURLs := 33333, dir := "out",
        baseURL := "https://www.example.com",
        urls := [⟨"/about", "2023-10-25", "monthly", "0.8"⟩],
        stylesheet := "" } : SitemapOptions).Write
        "https://www.example.com" "" ⟨⟨2025, 10, 11⟩, 0⟩ (fun _ _ => none)).state.urls
      = [⟨"https://www.example.com/about", "2023-10-25", "monthly", "0.8"⟩] := by
  have h := C10_write_frame
    { maxFileSize := 52428800, maxURLs := 33333, dir := "out",
      baseURL := "https://www.example.com",
      urls := [⟨"/about", "2023-10-25", "monthly", "0.8"⟩],
      stylesheet := "" }
    "https://www.example.com" "" ⟨⟨2025, 10, 11⟩, 0⟩ (fun _ _ => none) (by decide)
  rw [h.1]
  decide

theorem notSlash_of_ne (c : Char) (h : ¬ c = '/') : notSlash c = true := by
  simp [notSlash, h]

theorem eq_cons_of_take (l pre : List Char) (h : l.take pre.length = pre) :
    l = pre ++ l.drop pre.length := by
  conv_lhs => rw [← List.take_append_drop pre.length l]
  rw [h]

/-- `pathHasDotSegGo` ignores fuel above the input length. -/
theorem pathHasDotSegGo_fuel (f1 : Nat) :
    ∀ (f2 : Nat) (l : List Char), l.length < f1 → l.length < f2 →
      pathHasDotSegGo f1 l = pathHasDotSegGo f2 l := by
  induction f1 with
  | zero => intro f2 l h1 _; omega
  | succ g ih =>
    intro f2 l h1 h2
    match f2 with
    | 0 => omega
    | f + 1 =>
      rw [pathHasDotSegGo, pathHasDotSegGo]
      by_cases hdot : l.takeWhile notSlash = ['.'] ∨ l.takeWhile notSlash = ['.', '.']
      · rw [if_pos hdot, if_pos hdot]
      · rw [if_neg hdot, if_neg hdot]
        cases heq : l.dropWhile notSlash with
        | nil => rfl
        | cons x t =>
          have hsub := (List.dropWhile_sublist (l := l) notSlash).length_le
          rw [heq] at hsub
          simp at hsub
          exact ih f t (by omega) (by omega)

/-- One-step unfolding of `pathHasDotSeg`. -/
theorem pathHasDotSeg_unfold (l : List Char) :
    pathHasDotSeg l =
      (if l.takeWhile notSlash = ['.'] ∨ l.takeWhile notSlash = ['.', '.'] then true
       else
         match l.dropWhile notSlash with
         | [] => false
         | _ :: t => pathHasDotSeg t) := by
  unfold pathHasDotSeg
  rw [pathHasDotSegGo]
  by_cases hdot : l.takeWhile notSlash = ['.'] ∨ l.takeWhile notSlash = ['.', '.']
  · rw [if_pos hdot, if_pos hdot]
  · rw [if_neg hdot, if_neg hdot]
    cases heq : l.dropWhile notSlash with
    | nil => rfl
    | cons x t =>
      have hsub := (List.dropWhile_sublist (l := l) notSlash).length_le
      rw [heq] at hsub
      simp at hsub
      exact pathHasDotSegGo_fuel _ _ _ (by omega) (by omega)

theorem pathHasDotSeg_of_dotted (inp : List Char)
    (h : inp.takeWhile notSlash = ['.'] ∨ inp.takeWhile notSlash = ['.', '.']) :
    pathHasDotSeg inp = true := by
  rw [pathHasDotSeg_unfold, if_pos h]

theorem pathHasDotSeg_slash (cs : List Char) :
    pathHasDotSeg ('/' :: cs) = pathHasDotSeg cs := by
  rw [pathHasDotSeg_unfold]
  rw [List.takeWhile_cons, List.dropWhile_cons]
  rw [show notSlash '/' = false from rfl]
  simp

theorem pathHasDotSeg_cons_ne (c : Char) (cs : List Char) (hc : ¬ c = '/')
    (h : pathHasDotSeg (c :: cs) = false) :
    pathHasDotSeg (cs.dropWhile notSlash) = false := by
  rw [pathHasDotSeg_unfold, List.takeWhile_cons, List.dropWhile_cons,
    notSlash_of_ne c hc] at h
  simp only [if_true] at h
  split at h
  · simp at h
  · cases heq : cs.dropWhile notSlash with
    | nil => decide
    | cons x t =>
      rw [heq] at h
      have hx : notSlash x = false := by
        have h2 := List.head?_dropWhile_not notSlash cs
        rw [heq] at h2
        simpa using h2
      have hx' : x = '/' := by
        by_contra hne
        rw [notSlash_of_ne x hne] at hx
        simp at hx
      subst hx'
      rw [pathHasDotSeg_slash]
      exact h

theorem pathHasDotSeg_dropWhile (c : Char) (cs : List Char)
    (h : pathHasDotSeg (c :: cs) = false) :
    pathHasDotSeg (cs.dropWhile notSlash) = false := by
  by_cases hc : c = '/'
  · subst hc
    rw [pathHasDotSeg_slash] at h
    cases cs with
    | nil => decide
    | cons d ds =>
      by_cases hd : d = '/'
      · subst hd
        rw [List.dropWhile_cons, show notSlash '/' = false from rfl]
        simpa using h
      · rw [List.dropWhile_cons, notSlash_of_ne d hd]
        simp only [if_true]
        exact pathHasDotSeg_cons_ne d ds hd h
  · exact pathHasDotSeg_cons_ne c cs hc h

theorem dropLastSegment_subset (out : List Char) :
    ∀ c ∈ dropLastSegment out, c ∈ out := by
  intro c hc
  simp only [dropLastSegment] at hc
  rcases hd : out.reverse.dropWhile (· ≠ '/') with _ | ⟨x, t⟩
  · simp only [hd] at hc
    exact absurd hc (by simp)
  · simp only [hd] at hc
    have h1 : c ∈ t := List.mem_reverse.mp hc
    have h2 : c ∈ out.reverse.dropWhile (· ≠ '/') := by
      rw [hd]
      exact List.mem_cons_of_mem _ h1
    exact List.mem_reverse.mp ((List.dropWhile_sublist _).mem h2)

theorem dropAfterLastSlash_subset (l : List Char) :
    ∀ c ∈ dropAfterLastSlash l, c ∈ l := by
  intro c hc
  simp only [dropAfterLastSlash] at hc
  have h1 := List.mem_reverse.mp hc
  exact List.mem_reverse.mp ((List.dropWhile_sublist _).mem h1)

/-- `cutList` on `/` computes the `notSlash` segment split. -/
theorem cutList_slash (l : List Char) :
    (cutList '/' l).1 = l.takeWhile notSlash ∧
    ((cutList '/' l).2.2 = true →
      '/' :: (cutList '/' l).2.1 = l.dropWhile notSlash) ∧
    ((cutList '/' l).2.2 = false → l.dropWhile notSlash = []) := by
  induction l with
  | nil => exact ⟨rfl, by simp [cutList], by simp⟩
  | cons c cs ih =>
    obtain ⟨ih1, ih2, ih3⟩ := ih
    by_cases hc : c = '/'
    · subst hc
      refine ⟨?_, ?_, ?_⟩
      · simp [cutList, List.takeWhile_cons, notSlash]
      · intro _
        simp [cutList, List.dropWhile_cons, notSlash]
      · intro h
        simp [cutList] at h
    · refine ⟨?_, ?_, ?_⟩
      · simp only [cutList, if_neg hc, List.takeWhile_cons, notSlash_of_ne c hc, if_true]
        rw [ih1]
      · intro h
        simp only [cutList, if_neg hc] at h ⊢
        rw [List.dropWhile_cons, notSlash_of_ne c hc]
        simp only [if_true]
        exact ih2 h
      · intro h
        simp only [cutList, if_neg hc] at h
        rw [List.dropWhile_cons, notSlash_of_ne c hc]
        simp only [if_true]
        exact ih3 h

/-- Every character a segment step writes comes from the buffer, the
segment, or is a slash. -/
theorem resolveSegStep_subset (dst : List Char) (first : Bool) (elem : List Char) :
    ∀ c ∈ (resolveSegStep dst first elem).1, c ∈ dst ∨ c ∈ elem ∨ c = '/' := by
  intro c hc
  unfold resolveSegStep at hc
  split at hc
  · exact Or.inl hc
  · split at hc
    · split at hc
      · rcases List.mem_cons.mp hc with h | h
        · exact Or.inr (Or.inr h)
        · exact Or.inl (List.drop_subset 1 dst (dropLastSegment_subset _ c h))
      · simp only [List.mem_singleton] at hc
        exact Or.inr (Or.inr hc)
    · rcases List.mem_append.mp hc with h | h
      · rcases List.mem_append.mp h with h' | h'
        · exact Or.inl h'
        · split at h'
          · exact absurd h' (by simp)
          · simp only [List.mem_singleton] at h'
            exact Or.inr (Or.inr h')
      · exact Or.inr (Or.inl h)

/-- Every character of the loop's output comes from the initial buffer,
the input, or is a slash. -/
theorem resolvePathLoop_subset (fuel : Nat) :
    ∀ (rem dst : List Char) (first : Bool), ∀ c ∈ resolvePathLoop fuel rem dst first,
      c ∈ dst ∨ c ∈ rem ∨ c = '/' := by
  induction fuel with
  | zero =>
    intro rem dst first c hc
    exact Or.inl hc
  | succ f ih =>
    intro rem dst first c hc
    simp only [resolvePathLoop] at hc
    obtain ⟨hs1, hs2⟩ := cutList_subsets '/' rem
    split at hc
    · rcases ih _ _ _ c hc with h | h | h
      · rcases resolveSegStep_subset dst first _ c h with h' | h' | h'
        · exact Or.inl h'
        · exact Or.inr (Or.inl (hs1 c h'))
        · exact Or.inr (Or.inr h')
      · exact Or.inr (Or.inl (hs2 c h))
      · exact Or.inr (Or.inr h)
    · split at hc
      · rcases List.mem_append.mp hc with h | h
        · rcases resolveSegStep_subset dst first _ c h with h' | h' | h'
          · exact Or.inl h'
          · exact Or.inr (Or.inl (hs1 c h'))
          · exact Or.inr (Or.inr h')
        · simp only [List.mem_singleton] at h
          exact Or.inr (Or.inr h)
      · rcases resolveSegStep_subset dst first _ c hc with h' | h' | h'
        · exact Or.inl h'
        · exact Or.inr (Or.inl (hs1 c h'))
        · exact Or.inr (Or.inr h')

/-- Every character of a merged-and-normalised path comes from the base
path, the reference path, or is a slash. -/
theorem resolvePath_subset (base ref : String) :
    ∀ c ∈ (resolvePath base ref).data, c ∈ base.data ∨ c ∈ ref.data ∨ c = '/' := by
  intro c hc
  have hfull : ∀ (full : String),
      (∀ x ∈ full.data, x ∈ base.data ∨ x ∈ ref.data ∨ x = '/') →
      c ∈ (if full = "" then ""
        else (⟨if (resolvePathLoop (full.data.length + 1) full.data ['/'] true).take 2
                = ['/', '/']
              then (resolvePathLoop (full.data.length + 1) full.data ['/'] true).drop 1
              else resolvePathLoop (full.data.length + 1) full.data ['/'] true⟩ :
          String)).data →
      c ∈ base.data ∨ c ∈ ref.data ∨ c = '/' := by
    intro full hf hcm
    by_cases he : full = ""
    · rw [if_pos he] at hcm
      exact absurd hcm (by simp)
    · rw [if_neg he] at hcm
      have hcm2 : c ∈ resolvePathLoop (full.data.length + 1) full.data ['/'] true := by
        by_cases ht : (resolvePathLoop (full.data.length + 1) full.data ['/'] true).take 2
            = ['/', '/']
        · rw [if_pos ht] at hcm
          exact List.drop_subset _ _ hcm
        · rw [if_neg ht] at hcm
          exact hcm
      rcases resolvePathLoop_subset _ _ _ _ c hcm2 with h | h | h
      · simp only [List.mem_singleton] at h
        exact Or.inr (Or.inr h)
      · exact hf c h
      · exact Or.inr (Or.inr h)
  simp only [resolvePath] at hc
  by_cases h1 : ref = ""
  · rw [if_pos h1] at hc
    exact hfull base (fun x hx => Or.inl hx) hc
  · rw [if_neg h1] at hc
    by_cases h2 : ¬ ref.data.head? = some '/'
    · rw [if_pos h2] at hc
      refine hfull (⟨dropAfterLastSlash base.data⟩ ++ ref) ?_ hc
      intro x hx
      rw [String.data_append] at hx
      rcases List.mem_append.mp hx with h | h
      · exact Or.inl (dropAfterLastSlash_subset base.data x h)
      · exact Or.inr (Or.inl h)
    · rw [if_neg h2] at hc
      exact hfull ref (fun x hx => Or.inr (Or.inl hx)) hc

/-- A segment step keeps the buffer rooted. -/
theorem resolveSegStep_rooted (dst : List Char) (first : Bool) (elem : List Char)
    (hdst : dst.head? = some '/') :
    (resolveSegStep dst first elem).1.head? = some '/' := by
  unfold resolveSegStep
  split_ifs with h1 h2 h3 h4
  · exact hdst
  · rfl
  · rfl
  all_goals
    rcases dst with _ | ⟨d0, ds⟩
    · exact absurd hdst (by simp)
    · simp only [List.head?_cons, Option.some.injEq] at hdst
      subst hdst
      rfl

/-- The loop keeps its output rooted. -/
theorem resolvePathLoop_rooted (fuel : Nat) :
    ∀ (rem dst : List Char) (first : Bool), dst.head? = some '/' →
      (resolvePathLoop fuel rem dst first).head? = some '/' := by
  induction fuel with
  | zero =>
    intro rem dst first h
    exact h
  | succ f ih =>
    intro rem dst first hdst
    have hstep := resolveSegStep_rooted dst first (cutList '/' rem).1 hdst
    simp only [resolvePathLoop]
    split
    · exact ih _ _ _ hstep
    · split
      · rcases hs : (resolveSegStep dst first (cutList '/' rem).1).1 with _ | ⟨a, t⟩
        · rw [hs] at hstep
          exact absurd hstep (by simp)
        · rw [hs] at hstep
          simp only [List.head?_cons, Option.some.injEq] at hstep
          subst hstep
          rfl
      · exact hstep

/-- The merged-and-normalised path is empty or rooted: §5.2.3's
authority case falls out of the always-rooted output buffer. -/
theorem resolvePath_rooted (base ref : String) :
    resolvePath base ref = "" ∨ (resolvePath base ref).data.head? = some '/' := by
  have hstage : ∀ (F : String),
      ((if F = "" then ""
        else (⟨if (resolvePathLoop (F.data.length + 1) F.data ['/'] true).take 2
                = ['/', '/']
              then (resolvePathLoop (F.data.length + 1) F.data ['/'] true).drop 1
              else resolvePathLoop (F.data.length + 1) F.data ['/'] true⟩ :
          String)) = "" ∨
       (if F = "" then ""
        else (⟨if (resolvePathLoop (F.data.length + 1) F.data ['/'] true).take 2
                = ['/', '/']
              then (resolvePathLoop (F.data.length + 1) F.data ['/'] true).drop 1
              else resolvePathLoop (F.data.length + 1) F.data ['/'] true⟩ :
          String)).data.head? = some '/') := by
    intro F
    by_cases he : F = ""
    · rw [if_pos he]
      exact Or.inl rfl
    · rw [if_neg he]
      right
      have hroot := resolvePathLoop_rooted (F.data.length + 1) F.data ['/'] true rfl
      by_cases ht : (resolvePathLoop (F.data.length + 1) F.data ['/'] true).take 2
          = ['/', '/']
      · rw [if_pos ht]
        rcases hr : resolvePathLoop (F.data.length + 1) F.data ['/'] true with _ | ⟨a, r1⟩
        · rw [hr] at ht
          exact absurd ht (by simp)
        · rw [hr] at ht
          rcases r1 with _ | ⟨b, r2⟩
          · simp at ht
          · simp only [List.take_succ_cons, List.take_zero] at ht
            have hb : b = '/' := by
              simp at ht
              exact ht.2
            subst hb
            rfl
      · rw [if_neg ht]
        exact hroot
  simp only [resolvePath]
  exact hstage _

/-- The loop writes a dot-free remainder verbatim after a separator. -/
theorem resolvePathLoop_no_dot (fuel : Nat) :
    ∀ (rem dst : List Char), rem.length < fuel → pathHasDotSeg rem = false →
      resolvePathLoop fuel rem dst false = dst ++ '/' :: rem := by
  induction fuel with
  | zero =>
    intro rem dst h1 _
    omega
  | succ f ih =>
    intro rem dst hlen hnd
    have hseg : ¬ (rem.takeWhile notSlash = ['.'] ∨
        rem.takeWhile notSlash = ['.', '.']) := by
      intro hdot
      rw [pathHasDotSeg_of_dotted rem hdot] at hnd
      exact absurd hnd (by simp)
    obtain ⟨hc1, hc2, -⟩ := cutList_slash rem
    have hne1 : ¬ (cutList '/' rem).1 = ['.'] := by
      rw [hc1]
      intro h
      exact hseg (Or.inl h)
    have hne2 : ¬ (cutList '/' rem).1 = ['.', '.'] := by
      rw [hc1]
      intro h
      exact hseg (Or.inr h)
    have hdots : ¬ ((cutList '/' rem).1 = ['.'] ∨ (cutList '/' rem).1 = ['.', '.']) := by
      intro hd
      rcases hd with h | h
      · exact hne1 h
      · exact hne2 h
    have hstep1 : (resolveSegStep dst false (cutList '/' rem).1).1
        = dst ++ ['/'] ++ (cutList '/' rem).1 := by
      unfold resolveSegStep
      rw [if_neg hne1, if_neg hne2]
      simp
    have hstep2 : (resolveSegStep dst false (cutList '/' rem).1).2 = false := by
      unfold resolveSegStep
      rw [if_neg hne1, if_neg hne2]
    simp only [resolvePathLoop]
    by_cases hb : (cutList '/' rem).2.2 = true
    · obtain ⟨-, htrue, -⟩ := cutList_spec '/' rem
      have hrem := htrue hb
      have hdw : rem.dropWhile notSlash = '/' :: (cutList '/' rem).2.1 := (hc2 hb).symm
      have htail : pathHasDotSeg (cutList '/' rem).2.1 = false := by
        rw [pathHasDotSeg_unfold, if_neg hseg, hdw] at hnd
        simpa using hnd
      have hlt : (cutList '/' rem).2.1.length < f := by
        have hlen2 := congrArg List.length hrem
        simp only [List.length_append, List.length_cons] at hlen2
        omega
      rw [if_pos hb, hstep1, hstep2, ih _ _ hlt htail]
      conv_rhs => rw [hrem]
      simp [List.append_assoc]
    · have hb' : (cutList '/' rem).2.2 = false := by
        simpa using hb
      obtain ⟨-, -, hfalse⟩ := cutList_spec '/' rem
      have he : (cutList '/' rem).1 = rem := (hfalse hb').1
      rw [if_neg hb, if_neg hdots, hstep1, he]
      simp

/-- `resolvePath` against an empty reference reduces to the loop with
its doubled-slash fix-up. -/
theorem resolvePath_empty_ref_eq (p : String) (hp : ¬ p = "") :
    resolvePath p "" =
      ⟨if (resolvePathLoop (p.data.length + 1) p.data ['/'] true).take 2 = ['/', '/']
        then (resolvePathLoop (p.data.length + 1) p.data ['/'] true).drop 1
        else resolvePathLoop (p.data.length + 1) p.data ['/'] true⟩ := by
  simp only [resolvePath]
  rw [if_pos trivial, if_neg hp]

/-- One unfolding step of the segment loop at positive fuel. -/
theorem resolvePathLoop_succ (fuel : Nat) (remaining dst : List Char) (first : Bool) :
    resolvePathLoop (fuel + 1) remaining dst first =
      if (cutList '/' remaining).2.2 = true then
        resolvePathLoop fuel (cutList '/' remaining).2.1
          (resolveSegStep dst first (cutList '/' remaining).1).1
          (resolveSegStep dst first (cutList '/' remaining).1).2
      else if (cutList '/' remaining).1 = ['.'] ∨
          (cutList '/' remaining).1 = ['.', '.'] then
        (resolveSegStep dst first (cutList '/' remaining).1).1 ++ ['/']
      else (resolveSegStep dst first (cutList '/' remaining).1).1 := rfl

/-- `resolvePath` is the identity on rooted dot-free paths. -/
theorem resolvePath_abs_no_dot (p : String)
    (hhead : p.data.head? = some '/') (hnd : pathHasDotSeg p.data = false) :
    resolvePath p "" = p := by
  rcases hd : p.data with _ | ⟨c0, rest⟩
  · rw [hd] at hhead
    exact absurd hhead (by simp)
  · have hc0 : c0 = '/' := by
      rw [hd] at hhead
      simpa using hhead
    subst hc0
    have hpne : ¬ p = "" := by
      intro he
      have hd2 := congrArg String.data he
      have hed : ("" : String).data = [] := rfl
      rw [hd, hed] at hd2
      exact absurd hd2 (by simp)
    have hrestnd : pathHasDotSeg rest = false := by
      rw [hd] at hnd
      rwa [pathHasDotSeg_slash] at hnd
    have hcut : cutList '/' ('/' :: rest) = ([], rest, true) := by
      simp [cutList]
    have hloop : resolvePathLoop (p.data.length + 1) p.data ['/'] true
        = '/' :: '/' :: rest := by
      rw [hd]
      simp only [List.length_cons]
      rw [resolvePathLoop_succ, hcut]
      have hcond : ((([] : List Char), rest, true)).2.2 = true := rfl
      rw [if_pos hcond]
      show resolvePathLoop (rest.length + 1) rest ['/'] false = '/' :: '/' :: rest
      rw [resolvePathLoop_no_dot (rest.length + 1) rest ['/'] (by omega) hrestnd]
      rfl
    rw [resolvePath_empty_ref_eq p hpne, hloop]
    rw [if_pos (show (('/' :: '/' :: rest : List Char)).take 2 = ['/', '/'] from rfl)]
    rw [show (('/' :: '/' :: rest : List Char)).drop 1 = '/' :: rest from rfl, ← hd]

/-- An absolute reference resolves to itself with the rooted dot-segment
removal applied to its path (RFC 3986 §5.3, first case). -/
theorem resolveReference_abs (b r : GoURL) (h : r.scheme ≠ "") :
    resolveReference b r = { r with path := resolvePath r.path "" } := by
  simp only [resolveReference]
  rw [if_pos (Or.inl h)]
  simp [h]

/-- A reference without a scheme resolves to a URL carrying the base's
scheme. -/
theorem resolveReference_rel_scheme (b r : GoURL) (h : r.scheme = "") :
    (resolveReference b r).scheme = b.scheme := by
  simp only [resolveReference, h]
  split
  · simp
  · split <;> simp

/-- The rendering of a URL with a scheme starts with `scheme:`. -/
theorem urlString_scheme_take (u : GoURL) (h : u.scheme ≠ "") :
    (urlString u).data.take (u.scheme.data.length + 1) = u.scheme.data ++ [':'] := by
  simp only [urlString]
  rw [if_neg h]
  have hc : ((":" : String)).data = [':'] := rfl
  simp only [String.data_append, List.append_assoc, hc, List.cons_append,
    List.nil_append]
  rw [List.take_append_eq_append_take]
  rw [List.take_of_length_le (by simp)]
  congr 1
  have : u.scheme.data.length + 1 - u.scheme.data.length = 1 := by omega
  rw [this]
  rfl

/-- C5 counterexample: the claim fails as stated — an absolute location is
not always returned unchanged.  `ResolveReference` applies
remove_dot_segments to the path of an absolute reference (RFC 3986 §5.3),
so a dot-segmented absolute URL comes back normalised. -/
theorem C5_counterexample :
    resolveURLAgainst "https://example.com" "https://other.com/a/../b"
      = some "https://other.com/b" ∧
    ("https://other.com/b" : String) ≠ "https://other.com/a/../b" :=
  ⟨by decide, by decide⟩

/-- C5 (amended): for every parseable base and location, `resolveURL`
returns the `net/url` RFC 3986 §5.3 resolution of the reference against
the base.  An absolute location keeps all its components with only its
path rewritten by the merge-and-dot-segment-removal, whose output is
always rooted or empty — realising §5.2.3's authority case, so an
empty-path authority base joined with a dot segment gains the root
slash — hence an absolute location whose path is rooted and dot-free is
returned verbatim when it is in canonical printed form; a relative
location is joined against the base, yielding an absolute URL carrying
the base's scheme. -/
theorem C5_resolveURL_rfc3986 (base loc : String) (b r : GoURL)
    (hb : parseURL base = some b) (hr : parseURL loc = some r) :
    resolveURLAgainst base loc = some (urlString (resolveReference b r)) ∧
    (r.scheme ≠ "" →
      resolveReference b r = { r with path := resolvePath r.path "" }) ∧
    (r.scheme ≠ "" → r.path.data.head? = some '/' → pathHasDotSeg r.path.data = false →
      urlString r = loc → resolveURLAgainst base loc = some loc) ∧
    (r.scheme = "" → b.scheme ≠ "" →
      ∃ out, resolveURLAgainst base loc = some out ∧
        out.data.take (b.scheme.data.length + 1) = b.scheme.data ++ [':']) ∧
    (resolvePath b.path r.path = "" ∨
      (resolvePath b.path r.path).data.head? = some '/') := by
  have h1 : resolveURLAgainst base loc = some (urlString (resolveReference b r)) := by
    simp [resolveURLAgainst, hb, hr]
  refine ⟨h1, resolveReference_abs b r, ?_, ?_, resolvePath_rooted b.path r.path⟩
  · intro hs hhead hnd hcanon
    rw [h1, resolveReference_abs b r hs, resolvePath_abs_no_dot r.path hhead hnd]
    show some (urlString r) = some loc
    rw [hcanon]
  · intro hs hbs
    refine ⟨urlString (resolveReference b r), h1, ?_⟩
    have hsch := resolveReference_rel_scheme b r hs
    have htake := urlString_scheme_take (resolveReference b r) (by rw [hsch]; exact hbs)
    rw [hsch] at htake
    exact htake

/-- C5 witness: joining `.` against an empty-path authority base yields
the rooted base per §5.2.3, and a canonical dot-free absolute location
is returned unchanged. -/
theorem C5_resolveURL_rfc3986_witness :
    resolveURLAgainst "https://example.com" "." = some "https://example.com/" ∧
    resolveURLAgainst "https://example.com" "https://example.com/about"
      = some "https://example.com/about" := by
  constructor
  · have h := C5_resolveURL_rfc3986 "https://example.com" "."
      { scheme := "https", host := "example.com" } { path := "." }
      (by decide) (by decide)
    rw [h.1]
    decide
  · have h := C5_resolveURL_rfc3986 "https://example.com" "https://example.com/about"
      { scheme := "https", host := "example.com", path := "" }
      { scheme := "https", host := "example.com", path := "/about" }
      (by decide) (by decide)
    exact h.2.2.1 (by decide) (by decide) (by decide) (by decide)

theorem escChar_no_newline (c : Char) : '\n' ∉ escChar c := by
  unfold escChar
  split_ifs with h1 h2 h3 h4 h5 h6 h7 h8
  · decide
  · decide
  · decide
  · decide
  · decide
  · decide
  · decide
  · decide
  · intro hm
    simp only [List.mem_singleton] at hm
    exact h7 hm.symm

theorem escapeXML_no_newline (s : String) : '\n' ∉ (escapeXML s).data := by
  intro hm
  simp only [escapeXML, List.mem_flatten, List.mem_map] at hm
  obtain ⟨l, ⟨c, _, rfl⟩, hml⟩ := hm
  exact escChar_no_newline c hml

theorem wrapped_line_take2 (pre post x : String)
    (h2 : pre.data.take 2 = [' ', ' ']) :
    ((pre ++ escapeXML x ++ post) : String).data.take 2 = [' ', ' '] := by
  have hlen : 2 ≤ pre.data.length := by
    have := congrArg List.length h2
    simp [List.length_take] at this
    have he : pre.length = pre.data.length := rfl
    omega
  simp only [String.data_append, List.append_assoc]
  rw [List.take_append_of_le_length hlen, h2]

theorem wrapped_line_no_newline (pre post x : String)
    (hp : '\n' ∉ pre.data) (hq : '\n' ∉ post.data) :
    '\n' ∉ ((pre ++ escapeXML x ++ post) : String).data := by
  simp only [String.data_append, List.append_assoc, List.mem_append]
  rintro (h | h | h)
  · exact hp h
  · exact escapeXML_no_newline x h
  · exact hq h

theorem mem_urlEntryLines (u : SitemapURL) (l : String) (hl : l ∈ urlEntryLines u) :
    l.data.take 2 = [' ', ' '] ∧ '\n' ∉ l.data := by
  simp only [urlEntryLines, List.append_assoc, List.mem_append, List.mem_cons,
    List.mem_singleton, List.not_mem_nil, List.mem_ite_nil_left, or_false,
    false_or] at hl
  rcases hl with (h | h) | ⟨_, h⟩ | ⟨_, h⟩ | ⟨_, h⟩ | h
  · subst h; exact ⟨by decide, by decide⟩
  · subst h
    exact ⟨wrapped_line_take2 "    <loc>" "</loc>" u.loc (by decide),
           wrapped_line_no_newline "    <loc>" "</loc>" u.loc (by decide) (by decide)⟩
  · subst h
    exact ⟨wrapped_line_take2 "    <lastmod>" "</lastmod>" u.lastMod (by decide),
           wrapped_line_no_newline "    <lastmod>" "</lastmod>" u.lastMod
             (by decide) (by decide)⟩
  · subst h
    exact ⟨wrapped_line_take2 "    <changefreq>" "</changefreq>" u.changeFreq (by decide),
           wrapped_line_no_newline "    <changefreq>" "</changefreq>" u.changeFreq
             (by decide) (by decide)⟩
  · subst h
    exact ⟨wrapped_line_take2 "    <priority>" "</priority>" u.priority (by decide),
           wrapped_line_no_newline "    <priority>" "</priority>" u.priority
             (by decide) (by decide)⟩
  · subst h; exact ⟨by decide, by decide⟩

theorem mem_sitemapRefLines (r : SitemapRef) (l : String)
    (hl : l ∈ sitemapRefLines r) :
    l.data.take 2 = [' ', ' '] ∧ '\n' ∉ l.data := by
  simp only [sitemapRefLines, List.append_assoc, List.mem_append, List.mem_cons,
    List.mem_singleton, List.not_mem_nil, List.mem_ite_nil_left, or_false,
    false_or] at hl
  rcases hl with (h | h) | ⟨_, h⟩ | h
  · subst h; exact ⟨by decide, by decide⟩
  · subst h
    exact ⟨wrapped_line_take2 "    <loc>" "</loc>" r.loc (by decide),
           wrapped_line_no_newline "    <loc>" "</loc>" r.loc (by decide) (by decide)⟩
  · subst h
    exact ⟨wrapped_line_take2 "    <lastmod>" "</lastmod>" r.lastMod (by decide),
           wrapped_line_no_newline "    <lastmod>" "</lastmod>" r.lastMod
             (by decide) (by decide)⟩
  · subst h; exact ⟨by decide, by decide⟩

theorem mem_urlsetLines (urls : List SitemapURL) (l : String)
    (hl : l ∈ urlsetLines urls) :
    l.data.take 2 ≠ ['<', '?'] ∧ '\n' ∉ l.data := by
  simp only [urlsetLines] at hl
  split at hl
  · simp only [List.mem_singleton] at hl
    subst hl
    exact ⟨by decide, by decide⟩
  · rcases List.mem_cons.mp hl with h | h
    · subst h; exact ⟨by decide, by decide⟩
    · rcases List.mem_append.mp h with h | h
      · simp only [List.mem_flatten, List.mem_map] at h
        obtain ⟨ls, ⟨u, _, rfl⟩, hml⟩ := h
        have hf := mem_urlEntryLines u l hml
        refine ⟨?_, hf.2⟩
        rw [hf.1]
        decide
      · simp only [List.mem_singleton] at h
        subst h
        exact ⟨by decide, by decide⟩

theorem mem_sitemapindexLines (refs : List SitemapRef) (l : String)
    (hl : l ∈ sitemapindexLines refs) :
    l.data.take 2 ≠ ['<', '?'] ∧ '\n' ∉ l.data := by
  simp only [sitemapindexLines] at hl
  split at hl
  · simp only [List.mem_singleton] at hl
    subst hl
    exact ⟨by decide, by decide⟩
  · rcases List.mem_cons.mp hl with h | h
    · subst h; exact ⟨by decide, by decide⟩
    · rcases List.mem_append.mp h with h | h
      · simp only [List.mem_flatten, List.mem_map] at h
        obtain ⟨ls, ⟨r, _, rfl⟩, hml⟩ := h
        have hf := mem_sitemapRefLines r l hml
        refine ⟨?_, hf.2⟩
        rw [hf.1]
        decide
      · simp only [List.mem_singleton] at h
        subst h
        exact ⟨by decide, by decide⟩

theorem take16_ne_of_take2 (l : List Char) (h : l.take 2 ≠ ['<', '?']) :
    l.take 16 ≠ ("<?xml-stylesheet" : String).data := by
  intro he
  apply h
  have h2 : (l.take 16).take 2 = l.take 2 := by simp [List.take_take]
  rw [← h2, he]
  decide

theorem renderURLSetLines_pi (ss : String) (urls : List SitemapURL) (h : ss ≠ "") :
    (renderURLSetLines ss urls).head? = some xmlDeclLine ∧
    (renderURLSetLines ss urls)[1]? = some (stylesheetPI ss) := by
  simp [renderURLSetLines, h]

theorem renderIndexLines_pi (ss : String) (refs : List SitemapRef) (h : ss ≠ "") :
    (renderIndexLines ss refs).head? = some xmlDeclLine ∧
    (renderIndexLines ss refs)[1]? = some (stylesheetPI ss) := by
  simp [renderIndexLines, h]

theorem renderURLSetLines_no_pi (urls : List SitemapURL) (l : String)
    (hl : l ∈ renderURLSetLines "" urls) :
    l.data.take 16 ≠ ("<?xml-stylesheet" : String).data := by
  simp only [renderURLSetLines, ne_eq, not_true_eq_false, if_false,
    List.nil_append, List.mem_cons] at hl
  rcases hl with h | h
  · subst h; decide
  · exact take16_ne_of_take2 _ (mem_urlsetLines urls l h).1

theorem renderIndexLines_no_pi (refs : List SitemapRef) (l : String)
    (hl : l ∈ renderIndexLines "" refs) :
    l.data.take 16 ≠ ("<?xml-stylesheet" : String).data := by
  simp only [renderIndexLines, ne_eq, not_true_eq_false, if_false,
    List.nil_append, List.mem_cons] at hl
  rcases hl with h | h
  · subst h; decide
  · exact take16_ne_of_take2 _ (mem_sitemapindexLines refs l h).1

theorem writeShards_files_renders (dir ss bs : String) (urls : List SitemapURL)
    (m : Nat) (now : Instant) :
    ∀ (idxs : List Nat) (f : String × List String),
      f ∈ (writeShards dir ss bs urls m now idxs).1 →
      ∃ us, f.2 = renderURLSetLines ss us := by
  intro idxs
  induction idxs with
  | nil => intro f hf; simp [writeShards] at hf
  | cons i rest ih =>
    intro f hf
    cases hres : resolveSitemapURL bs (shardName i) with
    | none =>
      simp only [writeShards, hres] at hf
      simp only [List.mem_singleton] at hf
      subst hf
      exact ⟨_, rfl⟩
    | some u =>
      simp only [writeShards, hres] at hf
      rcases List.mem_cons.mp hf with h | h
      · subst h; exact ⟨_, rfl⟩
      · exact ih f h

theorem write_files_renders (s : SitemapOptions) (bs ss : String) (now : Instant)
    (v : List String → Bool → Option String) :
    ∀ f ∈ (s.Write bs ss now v).files,
      (∃ us, f.2 = renderURLSetLines ss us) ∨
      (∃ rs, f.2 = renderIndexLines ss rs) := by
  intro f hf
  rcases hpr : resolveURLs s.baseURL s.urls with ⟨res, e⟩
  simp only [SitemapOptions.Write, hpr] at hf
  cases e with
  | some err => simp at hf
  | none =>
    simp only at hf
    split at hf
    · simp only [List.mem_singleton] at hf
      subst hf
      exact Or.inl ⟨_, rfl⟩
    · rcases hws : writeShards s.dir ss bs res s.maxURLs now
        (List.range ((res.length + s.maxURLs - 1) / s.maxURLs)) with ⟨fs, refs, e2⟩
      rw [hws] at hf
      cases e2 with
      | some err =>
        simp only at hf
        have := writeShards_files_renders s.dir ss bs res s.maxURLs now
          (List.range ((res.length + s.maxURLs - 1) / s.maxURLs)) f
          (by rw [hws]; exact hf)
        exact Or.inl this
      | none =>
        simp only at hf
        rcases List.mem_append.mp hf with h | h
        · have := writeShards_files_renders s.dir ss bs res s.maxURLs now
            (List.range ((res.length + s.maxURLs - 1) / s.maxURLs)) f
            (by rw [hws]; exact h)
          exact Or.inl this
        · simp only [List.mem_singleton] at h
          subst h
          exact Or.inr ⟨_, rfl⟩

/-- C7: in every document `Write` emits (shard or index), a configured
stylesheet URL puts the processing instruction
`<?xml-stylesheet type="text/xsl" href="<url>"?>` as exactly the second
line, right after the XML declaration; with no stylesheet configured, no
line of any document begins with `<?xml-stylesheet`. -/
theorem C7_stylesheet_pi (s : SitemapOptions) (bs ss : String) (now : Instant)
    (v : List String → Bool → Option String) :
    (ss ≠ "" → ∀ f ∈ (s.Write bs ss now v).files,
      f.2.head? = some xmlDeclLine ∧ f.2[1]? = some (stylesheetPI ss)) ∧
    (ss = "" → ∀ f ∈ (s.Write bs ss now v).files,
      ∀ l ∈ f.2, l.data.take 16 ≠ ("<?xml-stylesheet" : String).data) := by
  constructor
  · intro hss f hf
    rcases write_files_renders s bs ss now v f hf with ⟨us, he⟩ | ⟨rs, he⟩
    · rw [he]; exact renderURLSetLines_pi ss us hss
    · rw [he]; exact renderIndexLines_pi ss rs hss
  · intro hss f hf l hl
    subst hss
    rcases write_files_renders s bs "" now v f hf with ⟨us, he⟩ | ⟨rs, he⟩
    · rw [he] at hl; exact renderURLSetLines_no_pi us l hl
    · rw [he] at hl; exact renderIndexLines_no_pi rs l hl

/-- C7 witness: with a stylesheet configured, the emitted `sitemap.xml`'s
second line is exactly the processing instruction. -/
theorem C7_stylesheet_pi_witness :
    ("out/sitemap.xml",
      [xmlDeclLine, stylesheetPI "https://x.com/style.xsl",
       "<urlset xmlns=\"http://www.sitemaps.org/schemas/sitemap/0.9\"></urlset>"])
      ∈ (({ maxFileSize := 52428800, maxURLs := 33333, dir := "out",
            baseURL := "https://www.example.com", urls := [],
            stylesheet := "" } : SitemapOptions).Write
          "https://www.example.com" "https://x.com/style.xsl"
          ⟨⟨2025, 10, 11⟩, 0⟩ (fun _ _ => none)).files ∧
    ([xmlDeclLine, stylesheetPI "https://x.com/style.xsl",
      "<urlset xmlns=\"http://www.sitemaps.org/schemas/sitemap/0.9\"></urlset>"]
       : List String)[1]? = some (stylesheetPI "https://x.com/style.xsl") := by
  refine ⟨by decide, ?_⟩
  have h := (C7_stylesheet_pi
    { maxFileSize := 52428800, maxURLs := 33333, dir := "out",
      baseURL := "https://www.example.com", urls := [], stylesheet := "" }
    "https://www.example.com" "https://x.com/style.xsl"
    ⟨⟨2025, 10, 11⟩, 0⟩ (fun _ _ => none)).1 (by decide)
  exact (h ("out/sitemap.xml",
    [xmlDeclLine, stylesheetPI "https://x.com/style.xsl",
     "<urlset xmlns=\"http://www.sitemaps.org/schemas/sitemap/0.9\"></urlset>"])
    (by decide)).2

/-- When the whole scan passes, every listed file was checked, in order. -/
theorem scanChecks_none (fs : List (String × List String))
    (v : List String → Bool → Option String) :
    ∀ checks, (scanChecks fs v checks).1 = none →
      (scanChecks fs v checks).2 = checks ∧
      ∀ c ∈ checks, validateXMLFile fs c.1 c.2 v = none := by
  intro checks
  induction checks with
  | nil => intro _; exact ⟨rfl, by simp⟩
  | cons c rest ih =>
    obtain ⟨p, b⟩ := c
    intro h
    cases hc : validateXMLFile fs p b v with
    | some e => rw [scanChecks, hc] at h; simp at h
    | none =>
      rw [scanChecks, hc] at h ⊢
      simp only at h ⊢
      obtain ⟨h1, h2⟩ := ih h
      refine ⟨by rw [h1], ?_⟩
      intro x hx
      rcases List.mem_cons.mp hx with hx | hx
      · subst hx; exact hc
      · exact h2 x hx

/-- A failing scan stops at the first failing file: the trace is the
prefix up to and including it, its check yields the returned error, and
everything before it passed; nothing after it is touched. -/
theorem scanChecks_some (fs : List (String × List String))
    (v : List String → Bool → Option String) :
    ∀ checks e, (scanChecks fs v checks).1 = some e →
      ∃ k, k < checks.length ∧
        (scanChecks fs v checks).2 = checks.take (k + 1) ∧
        (∃ c, checks[k]? = some c ∧ validateXMLFile fs c.1 c.2 v = some e) ∧
        ∀ j < k, ∀ c, checks[j]? = some c → validateXMLFile fs c.1 c.2 v = none := by
  intro checks
  induction checks with
  | nil => intro e h; simp [scanChecks] at h
  | cons c rest ih =>
    obtain ⟨p, b⟩ := c
    intro e h
    cases hc : validateXMLFile fs p b v with
    | some e0 =>
      rw [scanChecks, hc] at h ⊢
      simp only [Option.some.injEq] at h
      subst h
      refine ⟨0, by simp, by simp, ⟨(p, b), by simp, hc⟩, by omega⟩
    | none =>
      rw [scanChecks, hc] at h ⊢
      simp only at h ⊢
      obtain ⟨k, hk, htr, ⟨cf, hcf, hcfe⟩, hbefore⟩ := ih e h
      refine ⟨k + 1, by simp; omega, ?_, ⟨cf, by simpa using hcf, hcfe⟩, ?_⟩
      · rw [htr]
        rfl
      · intro j hj cc hcc
        match j with
        | 0 =>
          simp at hcc
          rw [← hcc]
          exact hc
        | j + 1 =>
          exact hbefore j (by omega) cc (by simpa using hcc)

/-- The shard loop is the spec-side scan of the referenced files in index
order. -/
theorem validateShardList_eq_scan (dir : String) (fs : List (String × List String))
    (v : List String → Bool → Option String) :
    ∀ locs : List String, (∀ loc ∈ locs, (parseURL loc).isSome) →
      validateShardList dir fs v locs =
        scanChecks fs v (locs.map (fun loc =>
          (pathJoin dir (pathBase ((parseURL loc).getD {}).path), false))) := by
  intro locs
  induction locs with
  | nil => intro _; rfl
  | cons loc rest ih =>
    intro h
    obtain ⟨u, hu⟩ := Option.isSome_iff_exists.mp (h loc (List.mem_cons_self loc rest))
    rw [List.map_cons, scanChecks, validateShardList, hu]
    rw [ih (fun x hx => h x (List.mem_cons_of_mem _ hx))]
    simp [hu]

/-- C8: for an indexed layout, validation is exactly the spec-side scan —
the index file first, then every shard file in the order the index
references them — and the first failure (at position `k`) is returned
with only the files up to and including it checked. -/
theorem C8_validation_order (dir : String) (fs : List (String × List String))
    (v : List String → Bool → Option String) (content locs : List String)
    (hidx : fsLookup fs (pathJoin dir "sitemap_index.xml") = some content)
    (hum : unmarshalIndexLocs content = some locs)
    (hlocs : ∀ loc ∈ locs, (parseURL loc).isSome) :
    validateSitemapIndexAndFiles dir fs v =
      scanChecks fs v ((pathJoin dir "sitemap_index.xml", true) ::
        locs.map (fun loc =>
          (pathJoin dir (pathBase ((parseURL loc).getD {}).path), false))) ∧
    ((validateSitemapIndexAndFiles dir fs v).1 = none →
      (validateSitemapIndexAndFiles dir fs v).2 =
        (pathJoin dir "sitemap_index.xml", true) ::
          locs.map (fun loc =>
            (pathJoin dir (pathBase ((parseURL loc).getD {}).path), false))) ∧
    (∀ e, (validateSitemapIndexAndFiles dir fs v).1 = some e →
      ∃ k, (validateSitemapIndexAndFiles dir fs v).2 =
          ((pathJoin dir "sitemap_index.xml", true) ::
            locs.map (fun loc =>
              (pathJoin dir (pathBase ((parseURL loc).getD {}).path), false))).take
            (k + 1) ∧
        (∃ c, ((pathJoin dir "sitemap_index.xml", true) ::
            locs.map (fun loc =>
              (pathJoin dir (pathBase ((parseURL loc).getD {}).path), false)))[k]?
            = some c ∧ validateXMLFile fs c.1 c.2 v = some e) ∧
        ∀ j < k, ∀ c, ((pathJoin dir "sitemap_index.xml", true) ::
            locs.map (fun loc =>
              (pathJoin dir (pathBase ((parseURL loc).getD {}).path), false)))[j]?
            = some c → validateXMLFile fs c.1 c.2 v = none) := by
  have hscan : validateSitemapIndexAndFiles dir fs v =
      scanChecks fs v ((pathJoin dir "sitemap_index.xml", true) ::
        locs.map (fun loc =>
          (pathJoin dir (pathBase ((parseURL loc).getD {}).path), false))) := by
    rw [scanChecks]
    cases hv : validateXMLFile fs (pathJoin dir "sitemap_index.xml") true v with
    | some e =>
      rw [validateSitemapIndexAndFiles, hv]
    | none =>
      simp only [validateSitemapIndexAndFiles, hv, hidx, hum]
      rw [validateShardList_eq_scan dir fs v locs hlocs]
  refine ⟨hscan, ?_, ?_⟩
  · intro hnone
    rw [hscan] at hnone ⊢
    exact (scanChecks_none fs v _ hnone).1
  · intro e he
    rw [hscan] at he ⊢
    obtain ⟨k, _, htr, hat, hbef⟩ := scanChecks_some fs v _ e he
    exact ⟨k, htr, hat, hbef⟩

/-- C8 witness: with a validator that rejects the first shard's content,
the scan checks the index and the first shard only, in that order. -/
theorem C8_validation_order_witness :
    validateSitemapIndexAndFiles "out"
        [("out/sitemap_index.xml",
          ["<?xml version=\"1.0\" encoding=\"UTF-8\"?>",
           "<sitemapindex xmlns=\"http://www.sitemaps.org/schemas/sitemap/0.9\">",
           "  <sitemap>", "    <loc>https://e.com/sitemap_1.xml</loc>",
           "  </sitemap>", "  <sitemap>",
           "    <loc>https://e.com/sitemap_2.xml</loc>", "  </sitemap>",
           "</sitemapindex>"]),
         ("out/sitemap_1.xml", ["a"]), ("out/sitemap_2.xml", ["b"])]
        (fun c _ => if c = ["a"] then some "bad" else none) =
      scanChecks
        [("out/sitemap_index.xml",
          ["<?xml version=\"1.0\" encoding=\"UTF-8\"?>",
           "<sitemapindex xmlns=\"http://www.sitemaps.org/schemas/sitemap/0.9\">",
           "  <sitemap>", "    <loc>https://e.com/sitemap_1.xml</loc>",
           "  </sitemap>", "  <sitemap>",
           "    <loc>https://e.com/sitemap_2.xml</loc>", "  </sitemap>",
           "</sitemapindex>"]),
         ("out/sitemap_1.xml", ["a"]), ("out/sitemap_2.xml", ["b"])]
        (fun c _ => if c = ["a"] then some "bad" else none)
        [("out/sitemap_index.xml", true), ("out/sitemap_1.xml", false),
         ("out/sitemap_2.xml", false)] := by
  have h := (C8_validation_order "out"
    [("out/sitemap_index.xml",
      ["<?xml version=\"1.0\" encoding=\"UTF-8\"?>",
       "<sitemapindex xmlns=\"http://www.sitemaps.org/schemas/sitemap/0.9\">",
       "  <sitemap>", "    <loc>https://e.com/sitemap_1.xml</loc>",
       "  </sitemap>", "  <sitemap>",
       "    <loc>https://e.com/sitemap_2.xml</loc>", "  </sitemap>",
       "</sitemapindex>"]),
     ("out/sitemap_1.xml", ["a"]), ("out/sitemap_2.xml", ["b"])]
    (fun c _ => if c = ["a"] then some "bad" else none)
    ["<?xml version=\"1.0\" encoding=\"UTF-8\"?>",
     "<sitemapindex xmlns=\"http://www.sitemaps.org/schemas/sitemap/0.9\">",
     "  <sitemap>", "    <loc>https://e.com/sitemap_1.xml</loc>",
     "  </sitemap>", "  <sitemap>",
     "    <loc>https://e.com/sitemap_2.xml</loc>", "  </sitemap>",
     "</sitemapindex>"]
    ["https://e.com/sitemap_1.xml", "https://e.com/sitemap_2.xml"]
    (by decide) (by decide) (by decide)).1
  rw [h]
  rfl

/-! ## C9 machinery: re-parsing a printed resolved URL

The emission invariant needs that every resolved location is non-empty
and itself parseable.  The lemmas below characterise the character
classes `parseURL` guarantees for each component and show that
`urlString` output built from such components parses again. -/

theorem char_eq_of_toNat (a b : Char) (h : a.toNat = b.toNat) : a = b := by
  have ha := Char.ofNat_toNat a
  have hb := Char.ofNat_toNat b
  rw [← ha, ← hb, h]

theorem toNat_ofNat_small (n : Nat) (h : n < 55296) : (Char.ofNat n).toNat = n := by
  unfold Char.ofNat
  split
  · rfl
  · rename_i hv
    exact absurd (Or.inl (by omega)) hv

theorem isAlphaChar_ne (c : Char) (h : isAlphaChar c = true) :
    c ≠ '#' ∧ c ≠ '?' ∧ c ≠ '/' ∧ c ≠ ':' := by
  refine ⟨?_, ?_, ?_, ?_⟩ <;> (intro he; subst he; exact absurd h (by decide))

theorem allowed_of_class (c : Char)
    (h : isAlphaChar c = true ∨ isDigitChar c = true ∨ c = '+' ∨ c = '-' ∨ c = '.') :
    allowedURLChar c = true := by
  rcases h with h | h | h | h | h
  · simp [allowedURLChar, h]
  · simp [allowedURLChar, h]
  · subst h; decide
  · subst h; decide
  · subst h; decide

theorem scheme_class_ne_hash (c : Char)
    (h : isAlphaChar c = true ∨ isDigitChar c = true ∨ c = '+' ∨ c = '-' ∨ c = '.') :
    c ≠ '#' := by
  rcases h with h | h | h | h | h
  · exact (isAlphaChar_ne c h).1
  · exact (digit_char_props c h).2.2.2.2
  · subst h; decide
  · subst h; decide
  · subst h; decide

theorem upper_iff (c : Char) : ('A' ≤ c ∧ c ≤ 'Z') ↔ (65 ≤ c.toNat ∧ c.toNat ≤ 90) := by
  constructor
  · intro h
    obtain ⟨h1, h2⟩ := h
    rw [Char.le_def] at h1 h2
    exact ⟨h1, h2⟩
  · intro h
    obtain ⟨h1, h2⟩ := h
    refine ⟨?_, ?_⟩ <;> rw [Char.le_def]
    · exact h1
    · exact h2

theorem lowerChar_toNat (c : Char) :
    (lowerChar c).toNat = if 65 ≤ c.toNat ∧ c.toNat ≤ 90 then c.toNat + 32 else c.toNat := by
  unfold lowerChar
  by_cases h : 65 ≤ c.toNat ∧ c.toNat ≤ 90
  · rw [if_pos ((upper_iff c).mpr h), if_pos h]
    exact toNat_ofNat_small _ (by omega)
  · rw [if_neg (fun hc => h ((upper_iff c).mp hc)), if_neg h]

theorem lowerChar_alpha (c : Char) (h : isAlphaChar c = true) :
    isAlphaChar (lowerChar c) = true := by
  have ht := lowerChar_toNat c
  simp only [isAlphaChar, Bool.or_eq_true, Bool.and_eq_true, decide_eq_true_eq] at h ⊢
  split at ht <;> omega

theorem lowerChar_not_upper (c : Char) (h : ¬ (65 ≤ c.toNat ∧ c.toNat ≤ 90)) :
    lowerChar c = c := by
  have ht := lowerChar_toNat c
  rw [if_neg h] at ht
  exact char_eq_of_toNat _ _ ht

theorem lowerChar_class (c : Char)
    (h : isAlphaChar c = true ∨ isDigitChar c = true ∨ c = '+' ∨ c = '-' ∨ c = '.') :
    isAlphaChar (lowerChar c) = true ∨ isDigitChar (lowerChar c) = true ∨
      lowerChar c = '+' ∨ lowerChar c = '-' ∨ lowerChar c = '.' := by
  rcases h with h | h | h | h | h
  · exact Or.inl (lowerChar_alpha c h)
  · refine Or.inr (Or.inl ?_)
    rw [lowerChar_not_upper c ?_]
    · exact h
    · simp only [isDigitChar, Bool.and_eq_true, decide_eq_true_eq] at h
      omega
  · subst h; exact Or.inr (Or.inr (Or.inl (by decide)))
  · subst h; exact Or.inr (Or.inr (Or.inr (Or.inl (by decide))))
  · subst h; exact Or.inr (Or.inr (Or.inr (Or.inr (by decide))))

theorem lowerChar_allowed (c : Char) (h : allowedURLChar c = true) :
    allowedURLChar (lowerChar c) = true := by
  by_cases hu : 65 ≤ c.toNat ∧ c.toNat ≤ 90
  · refine allowed_of_class _ (Or.inl (lowerChar_alpha c ?_))
    simp only [isAlphaChar, Bool.or_eq_true, Bool.and_eq_true, decide_eq_true_eq]
    omega
  · rw [lowerChar_not_upper c hu]; exact h

theorem string_eq_empty_iff (s : String) : s = "" ↔ s.data = [] := by
  constructor
  · intro h; rw [h]
  · intro h
    calc s = ⟨s.data⟩ := rfl
    _ = ⟨[]⟩ := by rw [h]
    _ = "" := rfl

theorem lowerStr_ne_empty (s : String) (h : s ≠ "") : lowerStr s ≠ "" := by
  intro he
  apply h
  rw [string_eq_empty_iff] at he ⊢
  have hd : (lowerStr s).data = s.data.map lowerChar := rfl
  rw [hd] at he
  exact List.map_eq_nil_iff.mp he

theorem cutList_append_not_mem (sep : Char) (l1 l2 : List Char) (h : sep ∉ l1) :
    cutList sep (l1 ++ sep :: l2) = (l1, l2, true) := by
  induction l1 with
  | nil => simp [cutList]
  | cons c cs ih =>
    simp only [List.mem_cons, not_or] at h
    simp [cutList, Ne.symm h.1, ih h.2]

theorem takeWhile_append_of_all (p : Char → Bool) (l1 l2 : List Char)
    (h : ∀ c ∈ l1, p c = true) :
    (l1 ++ l2).takeWhile p = l1 ++ l2.takeWhile p := by
  induction l1 with
  | nil => rfl
  | cons a t ih =>
    simp only [List.cons_append, List.takeWhile_cons, h a (by simp)]
    simp only [if_true]
    rw [ih fun c hc => h c (by simp [hc])]

theorem drop_append_cons (a b : List Char) (c : Char) :
    (a ++ c :: b).drop (a.length + 1) = b := by
  have h1 : a ++ c :: b = (a ++ [c]) ++ b := by simp
  rw [h1]
  have hl : a.length + 1 = (a ++ [c]).length := by simp
  rw [hl, List.drop_left]

/-- Completeness of the scheme scanner: on input `sch ++ ':' :: tail` with
`sch` made of scheme characters (letter first), the scan stops exactly at
the colon. -/
theorem getSchemeAux_finds (orig : String) :
    ∀ (sch pre tail : List Char),
      orig.data = pre ++ (sch ++ ':' :: tail) →
      (∀ c ∈ sch, isAlphaChar c = true ∨ isDigitChar c = true ∨ c = '+' ∨ c = '-' ∨ c = '.') →
      (pre = [] → ∃ c cs, sch = c :: cs ∧ isAlphaChar c = true) →
      getSchemeAux orig (sch ++ ':' :: tail) pre.length =
        some (⟨pre ++ sch⟩, ⟨tail⟩) := by
  intro sch
  induction sch with
  | nil =>
    intro pre tail horig hcls hhead
    have hpre : pre ≠ [] := by
      intro he
      obtain ⟨c, cs, hc, _⟩ := hhead he
      exact absurd hc (by simp)
    have hlen : ¬ pre.length = 0 := fun h0 => hpre (List.length_eq_zero.mp h0)
    have h1 : isAlphaChar ':' = false := by decide
    have h2 : (isDigitChar ':' = true ∨ (':' : Char) = '+' ∨ (':' : Char) = '-' ∨
        (':' : Char) = '.') ↔ False := by decide
    have htake : orig.data.take pre.length = pre := by
      rw [horig]
      simp only [List.nil_append]
      exact List.take_left pre _
    have hdrop : orig.data.drop (pre.length + 1) = tail := by
      rw [horig]
      simp only [List.nil_append]
      exact drop_append_cons pre tail ':'
    have h3 : isDigitChar ':' = false := by decide
    simp [getSchemeAux, h1, h2, h3, hlen, htake, hdrop]
  | cons c cs ih =>
    intro pre tail horig hcls hhead
    have hc := hcls c (by simp)
    have hnext : orig.data = (pre ++ [c]) ++ (cs ++ ':' :: tail) := by
      rw [horig]; simp
    by_cases ha : isAlphaChar c = true
    · simp only [List.cons_append, getSchemeAux]
      rw [if_pos ha]
      have hr := ih (pre ++ [c]) tail hnext
        (fun x hx => hcls x (by simp [hx])) (by simp)
      simp only [List.length_append, List.length_cons, List.length_nil,
        List.append_assoc, List.singleton_append] at hr
      exact hr
    · have hcls' : isDigitChar c = true ∨ c = '+' ∨ c = '-' ∨ c = '.' := by
        rcases hc with h | h
        · exact absurd h ha
        · exact h
      have hpre : pre ≠ [] := by
        intro he
        obtain ⟨c', cs', hcc, hal⟩ := hhead he
        injection hcc with h1 _
        exact ha (h1 ▸ hal)
      have hlen : ¬ pre.length = 0 := fun h0 => hpre (List.length_eq_zero.mp h0)
      simp only [List.cons_append, getSchemeAux]
      rw [if_neg ha, if_pos hcls', if_neg hlen]
      have hr := ih (pre ++ [c]) tail hnext
        (fun x hx => hcls x (by simp [hx])) (by simp)
      simp only [List.length_append, List.length_cons, List.length_nil,
        List.append_assoc, List.singleton_append] at hr
      exact hr

/-- Soundness of the scheme scanner: a successful scan returns either no
scheme, or a non-empty scheme made of scheme characters starting with a
letter, and a remainder drawn from the input. -/
theorem getSchemeAux_sound (orig : String) :
    ∀ (l pre : List Char) (a b : String),
      orig.data = pre ++ l →
      (∀ c ∈ pre, isAlphaChar c = true ∨ isDigitChar c = true ∨ c = '+' ∨ c = '-' ∨ c = '.') →
      (∀ c cs, pre = c :: cs → isAlphaChar c = true) →
      getSchemeAux orig l pre.length = some (a, b) →
      (a = "" ∧ b = orig) ∨
        (a.data ≠ [] ∧
         (∀ c ∈ a.data, isAlphaChar c = true ∨ isDigitChar c = true ∨ c = '+' ∨ c = '-' ∨ c = '.') ∧
         (∀ c cs, a.data = c :: cs → isAlphaChar c = true) ∧
         (∀ c ∈ b.data, c ∈ orig.data)) := by
  intro l
  induction l with
  | nil =>
    intro pre a b horig hcls hhead h
    simp only [getSchemeAux] at h
    injection h with h'
    rw [Prod.mk.injEq] at h'
    exact Or.inl ⟨h'.1.symm, h'.2.symm⟩
  | cons c cs ih =>
    intro pre a b horig hcls hhead h
    simp only [getSchemeAux] at h
    by_cases ha : isAlphaChar c = true
    · rw [if_pos ha] at h
      refine ih (pre ++ [c]) a b (by rw [horig]; simp) ?_ ?_ (by simpa using h)
      · intro x hx
        rcases List.mem_append.mp hx with h1 | h1
        · exact hcls x h1
        · rw [List.mem_singleton.mp h1]
          exact Or.inl ha
      · intro c' cs' he
        cases pre with
        | nil =>
          simp only [List.nil_append, List.cons.injEq] at he
          rw [← he.1]
          exact ha
        | cons p ps =>
          simp only [List.cons_append] at he
          injection he with h1 _
          exact h1 ▸ hhead p ps rfl
    · rw [if_neg ha] at h
      by_cases hd : isDigitChar c = true ∨ c = '+' ∨ c = '-' ∨ c = '.'
      · rw [if_pos hd] at h
        by_cases h0 : pre.length = 0
        · rw [if_pos h0] at h
          injection h with h'
          rw [Prod.mk.injEq] at h'
          exact Or.inl ⟨h'.1.symm, h'.2.symm⟩
        · rw [if_neg h0] at h
          have hpre : pre ≠ [] := fun he => h0 (by rw [he]; rfl)
          refine ih (pre ++ [c]) a b (by rw [horig]; simp) ?_ ?_ (by simpa using h)
          · intro x hx
            rcases List.mem_append.mp hx with h1 | h1
            · exact hcls x h1
            · rw [List.mem_singleton.mp h1]
              exact Or.inr hd
          · intro c' cs' he
            cases pre with
            | nil => exact absurd rfl hpre
            | cons p ps =>
              simp only [List.cons_append] at he
              injection he with h1 _
              exact h1 ▸ hhead p ps rfl
      · rw [if_neg hd] at h
        by_cases hcol : c = ':'
        · rw [if_pos hcol] at h
          by_cases h0 : pre.length = 0
          · rw [if_pos h0] at h
            exact absurd h (by simp)
          · rw [if_neg h0] at h
            injection h with h'
            rw [Prod.mk.injEq] at h'
            obtain ⟨ha', hb'⟩ := h'
            right
            have hdata : a.data = orig.data.take pre.length := by rw [← ha']
            have hbdata : b.data = orig.data.drop (pre.length + 1) := by rw [← hb']
            have htake : orig.data.take pre.length = pre := by
              rw [horig, List.take_append_of_le_length (by omega)]
              exact List.take_of_length_le (by omega)
            rw [htake] at hdata
            refine ⟨?_, ?_, ?_, ?_⟩
            · rw [hdata]
              intro he
              exact h0 (by rw [he]; rfl)
            · intro x hx
              rw [hdata] at hx
              exact hcls x hx
            · intro c' cs' he
              rw [hdata] at he
              exact hhead c' cs' he
            · intro x hx
              rw [hbdata] at hx
              exact List.drop_subset _ _ hx
        · rw [if_neg hcol] at h
          injection h with h'
          rw [Prod.mk.injEq] at h'
          exact Or.inl ⟨h'.1.symm, h'.2.symm⟩

theorem getScheme_sound (s a b : String) (h : getScheme s = some (a, b)) :
    (a = "" ∧ b = s) ∨
      (a.data ≠ [] ∧
       (∀ c ∈ a.data, isAlphaChar c = true ∨ isDigitChar c = true ∨ c = '+' ∨ c = '-' ∨ c = '.') ∧
       (∀ c cs, a.data = c :: cs → isAlphaChar c = true) ∧
       (∀ c ∈ b.data, c ∈ s.data)) :=
  getSchemeAux_sound s s.data [] a b rfl (by simp) (by simp) h

/-- Soundness of the post-scheme parser: every component of a successful
parse is drawn from the input, the host is slash-free with a valid
optional port, query characters never leak into other components, and an
opaque component forces a non-empty scheme, a non-slash head and an empty
path. -/
theorem parseAfterScheme_sound (scheme : String) (rest0 : List Char) (u : GoURL)
    (h : parseAfterScheme scheme rest0 = some u) :
    u.scheme = scheme ∧ u.fragment = "" ∧
    (u.opq ≠ "" → scheme ≠ "" ∧ u.opq.data.head? ≠ some '/' ∧ u.path = "") ∧
    ('?' ∉ u.opq.data) ∧ (∀ c ∈ u.opq.data, c ∈ rest0) ∧
    ('?' ∉ u.host.data) ∧ ('/' ∉ u.host.data) ∧ validOptionalPort u.host.data = true ∧
    (∀ c ∈ u.host.data, c ∈ rest0) ∧
    ('?' ∉ u.path.data) ∧ (∀ c ∈ u.path.data, c ∈ rest0) ∧
    (∀ c ∈ u.rawQuery.data, c ∈ rest0) := by
  have hbranch : ∀ (rest rawQL : List Char) (forceQ : Bool),
      '?' ∉ rest → (∀ c ∈ rest, c ∈ rest0) → (∀ c ∈ rawQL, c ∈ rest0) →
      (if ¬ rest.head? = some '/' then
        if scheme ≠ "" then
          some { scheme := scheme, opq := ⟨rest⟩, forceQuery := forceQ,
                 rawQuery := (⟨rawQL⟩ : String) }
        else if (rest.takeWhile (· ≠ '/')).contains ':' then none
        else some { path := ⟨rest⟩, forceQuery := forceQ,
                    rawQuery := (⟨rawQL⟩ : String) }
      else
        if (scheme ≠ "" ∨ ¬ rest.take 3 = ['/', '/', '/']) ∧ rest.take 2 = ['/', '/'] then
          if validOptionalPort ((rest.drop 2).takeWhile (· ≠ '/')) then
            some { scheme := scheme, host := ⟨(rest.drop 2).takeWhile (· ≠ '/')⟩,
                   path := ⟨(rest.drop 2).dropWhile (· ≠ '/')⟩,
                   forceQuery := forceQ, rawQuery := (⟨rawQL⟩ : String) }
          else none
        else
          some { scheme := scheme, omitHost := scheme ≠ "", path := ⟨rest⟩,
                 forceQuery := forceQ, rawQuery := (⟨rawQL⟩ : String) }) = some u →
      u.scheme = scheme ∧ u.fragment = "" ∧
      (u.opq ≠ "" → scheme ≠ "" ∧ u.opq.data.head? ≠ some '/' ∧ u.path = "") ∧
      ('?' ∉ u.opq.data) ∧ (∀ c ∈ u.opq.data, c ∈ rest0) ∧
      ('?' ∉ u.host.data) ∧ ('/' ∉ u.host.data) ∧ validOptionalPort u.host.data = true ∧
      (∀ c ∈ u.host.data, c ∈ rest0) ∧
      ('?' ∉ u.path.data) ∧ (∀ c ∈ u.path.data, c ∈ rest0) ∧
      (∀ c ∈ u.rawQuery.data, c ∈ rest0) := by
    intro rest rawQL forceQ hq hsub hqsub hif
    by_cases hhead : rest.head? = some '/'
    · rw [if_neg (not_not_intro hhead)] at hif
      by_cases hauth : (scheme ≠ "" ∨ ¬ rest.take 3 = ['/', '/', '/']) ∧
          rest.take 2 = ['/', '/']
      · rw [if_pos hauth] at hif
        by_cases hport : validOptionalPort ((rest.drop 2).takeWhile (· ≠ '/')) = true
        · rw [if_pos hport] at hif
          injection hif with hu
          subst hu
          refine ⟨rfl, rfl, fun hopq => absurd rfl hopq, by simp, by simp, ?_, ?_, hport,
            ?_, ?_, ?_, hqsub⟩
          · intro hm
            exact hq (List.drop_subset 2 rest ((List.takeWhile_sublist _).mem hm))
          · intro hm
            have := List.mem_takeWhile_imp hm
            simp at this
          · intro c hc
            exact hsub c (List.drop_subset 2 rest ((List.takeWhile_sublist _).mem hc))
          · intro hm
            exact hq (List.drop_subset 2 rest ((List.dropWhile_sublist _).mem hm))
          · intro c hc
            exact hsub c (List.drop_subset 2 rest ((List.dropWhile_sublist _).mem hc))
        · rw [if_neg hport] at hif
          exact absurd hif (by simp)
      · rw [if_neg hauth] at hif
        injection hif with hu
        subst hu
        refine ⟨rfl, rfl, fun hopq => absurd rfl hopq, by simp, by simp, by simp, by simp,
          rfl, by simp, hq, hsub, hqsub⟩
    · rw [if_pos hhead] at hif
      by_cases hsch : scheme = ""
      · rw [if_neg (by simp [hsch])] at hif
        by_cases hcol : (rest.takeWhile (· ≠ '/')).contains ':' = true
        · rw [if_pos hcol] at hif
          exact absurd hif (by simp)
        · rw [if_neg hcol] at hif
          injection hif with hu
          subst hu
          refine ⟨hsch.symm, rfl, fun hopq => absurd rfl hopq, by simp, by simp, by simp,
            by simp, rfl, by simp, hq, hsub, hqsub⟩
      · rw [if_pos hsch] at hif
        injection hif with hu
        subst hu
        exact ⟨rfl, rfl, fun _ => ⟨hsch, hhead, rfl⟩, hq, hsub, by simp, by simp,
          rfl, by simp, by simp, by simp, hqsub⟩
  by_cases hc : rest0.getLast? = some '?' ∧ ¬ rest0.dropLast.contains '?' = true
  · simp only [parseAfterScheme] at h
    rw [if_pos hc] at h
    refine hbranch rest0.dropLast [] true ?_ ?_ ?_ h
    · intro hm
      exact hc.2 (List.elem_iff.mpr hm)
    · intro c hcm
      exact List.dropLast_subset _ hcm
    · intro c hcm
      exact absurd hcm (by simp)
  · simp only [parseAfterScheme] at h
    rw [if_neg hc] at h
    obtain ⟨hno, _⟩ := cutList_spec '?' rest0
    obtain ⟨hs1, hs2⟩ := cutList_subsets '?' rest0
    refine hbranch (cutList '?' rest0).1 (cutList '?' rest0).2.1 false
      (fun hm => hno hm) hs1 hs2 h

/-- The component facts `parseURL` guarantees: scheme characters and
leading letter, provenance and separator-freedom of every component, and
the opaque-component invariants. -/
theorem parseURL_sound (s : String) (u : GoURL) (h : parseURL s = some u) :
    (∀ c ∈ u.scheme.data,
      isAlphaChar c = true ∨ isDigitChar c = true ∨ c = '+' ∨ c = '-' ∨ c = '.') ∧
    (∀ c cs, u.scheme.data = c :: cs → isAlphaChar c = true) ∧
    (u.opq ≠ "" → u.scheme ≠ "" ∧ u.opq.data.head? ≠ some '/' ∧ u.path = "") ∧
    ('#' ∉ u.opq.data) ∧ ('?' ∉ u.opq.data) ∧
    (∀ c ∈ u.opq.data, allowedURLChar c = true) ∧
    ('#' ∉ u.host.data) ∧ ('?' ∉ u.host.data) ∧ ('/' ∉ u.host.data) ∧
    validOptionalPort u.host.data = true ∧
    (∀ c ∈ u.host.data, allowedURLChar c = true) ∧
    ('#' ∉ u.path.data) ∧ ('?' ∉ u.path.data) ∧
    (∀ c ∈ u.path.data, allowedURLChar c = true) ∧
    ('#' ∉ u.rawQuery.data) ∧ (∀ c ∈ u.rawQuery.data, allowedURLChar c = true) ∧
    (∀ c ∈ u.fragment.data, allowedURLChar c = true) := by
  simp only [parseURL] at h
  by_cases hall : s.data.all allowedURLChar = true
  · rw [if_neg (not_not_intro hall)] at h
    have hallm : ∀ c ∈ s.data, allowedURLChar c = true := List.all_eq_true.mp hall
    obtain ⟨hhash1, _⟩ := cutList_spec '#' s.data
    obtain ⟨hcs1, hcs2⟩ := cutList_subsets '#' s.data
    rcases hgs : getScheme ⟨(cutList '#' s.data).1⟩ with _ | ⟨a, b⟩
    · rw [hgs] at h
      exact absurd h (by simp)
    · rcases hpas : parseAfterScheme (lowerStr a) b.data with _ | u'
      · simp only [hgs, hpas] at h
        exact absurd h (by simp)
      · simp only [hgs, hpas, Option.some.injEq] at h
        subst h
        obtain ⟨hsch, -, hopq, hq1, hsub1, hq2, hsl, hport, hsub2, hq3, hsub3, hsub4⟩ :=
          parseAfterScheme_sound (lowerStr a) b.data u' hpas
        have hbsub : ∀ c ∈ b.data, c ∈ s.data := by
          rcases getScheme_sound _ a b hgs with ⟨-, hb⟩ | ⟨-, -, -, hb⟩
          · intro c hcb
            rw [hb] at hcb
            exact hcs1 c hcb
          · intro c hcb
            exact hcs1 c (hb c hcb)
        have hbhash : ('#' : Char) ∉ b.data := by
          rcases getScheme_sound _ a b hgs with ⟨-, hb⟩ | ⟨-, -, -, hb⟩
          · intro hcb
            rw [hb] at hcb
            exact hhash1 hcb
          · intro hcb
            exact hhash1 (hb '#' hcb)
        have hschdata : u'.scheme.data = a.data.map lowerChar := by
          rw [hsch]
          rfl
        refine ⟨?_, ?_, ?_, ?_, ?_, ?_, ?_, ?_, ?_, ?_, ?_, ?_, ?_, ?_, ?_, ?_, ?_⟩
        · intro c hcm
          rw [hschdata] at hcm
          obtain ⟨c', hc', rfl⟩ := List.mem_map.mp hcm
          rcases getScheme_sound _ a b hgs with ⟨ha, -⟩ | ⟨-, hcls, -, -⟩
          · rw [ha] at hc'
            exact absurd hc' (by simp)
          · exact lowerChar_class c' (hcls c' hc')
        · intro c cs hcons
          rw [hschdata] at hcons
          rcases getScheme_sound _ a b hgs with ⟨ha, -⟩ | ⟨-, -, hhd, -⟩
          · rw [ha] at hcons
            exact absurd hcons (by simp)
          · rcases hd : a.data with _ | ⟨c0, cs0⟩
            · rw [hd] at hcons
              exact absurd hcons (by simp)
            · rw [hd] at hcons
              simp only [List.map_cons, List.cons.injEq] at hcons
              rw [← hcons.1]
              exact lowerChar_alpha c0 (hhd c0 cs0 hd)
        · intro hne
          obtain ⟨hs0, hh0, hp0⟩ := hopq hne
          exact ⟨by rw [hsch]; exact hs0, hh0, hp0⟩
        · exact fun hm => hbhash (hsub1 '#' hm)
        · exact hq1
        · exact fun c hcm => hallm c (hbsub c (hsub1 c hcm))
        · exact fun hm => hbhash (hsub2 '#' hm)
        · exact hq2
        · exact hsl
        · exact hport
        · exact fun c hcm => hallm c (hbsub c (hsub2 c hcm))
        · exact fun hm => hbhash (hsub3 '#' hm)
        · exact hq3
        · exact fun c hcm => hallm c (hbsub c (hsub3 c hcm))
        · exact fun hm => hbhash (hsub4 '#' hm)
        · exact fun c hcm => hallm c (hbsub c (hsub4 c hcm))
        · exact fun c hcm => hallm c (hcs2 c hcm)
  · rw [if_pos hall] at h
    exact absurd h (by simp)

theorem string_data_ext (s t : String) (h : s.data = t.data) : s = t := by
  calc s = ⟨s.data⟩ := rfl
  _ = ⟨t.data⟩ := by rw [h]
  _ = t := rfl

/-- The post-scheme parser succeeds on `core ++ query-part` whenever the
core is free of `?`, the query part is empty or `?`-led, the scheme is
non-empty, and — if the core opens an authority — the optional port is
valid. -/
theorem parseAfterScheme_isSome_of (scheme : String) (coreL qL : List Char)
    (hs : scheme ≠ "")
    (hcq : '?' ∉ coreL)
    (hqshape : qL = [] ∨ qL = ['?'] ∨ ∃ t, t ≠ [] ∧ qL = '?' :: t)
    (hport : coreL.take 2 = ['/', '/'] →
      validOptionalPort ((coreL.drop 2).takeWhile (· ≠ '/')) = true) :
    (parseAfterScheme scheme (coreL ++ qL)).isSome = true := by
  have hbranch : ∀ (rawQL : List Char) (forceQ : Bool),
      (if ¬ coreL.head? = some '/' then
        if scheme ≠ "" then
          some { scheme := scheme, opq := ⟨coreL⟩, forceQuery := forceQ,
                 rawQuery := (⟨rawQL⟩ : String) }
        else if (coreL.takeWhile (· ≠ '/')).contains ':' then none
        else some { path := ⟨coreL⟩, forceQuery := forceQ,
                    rawQuery := (⟨rawQL⟩ : String) }
      else
        if (scheme ≠ "" ∨ ¬ coreL.take 3 = ['/', '/', '/']) ∧
            coreL.take 2 = ['/', '/'] then
          if validOptionalPort ((coreL.drop 2).takeWhile (· ≠ '/')) then
            some { scheme := scheme, host := ⟨(coreL.drop 2).takeWhile (· ≠ '/')⟩,
                   path := ⟨(coreL.drop 2).dropWhile (· ≠ '/')⟩,
                   forceQuery := forceQ, rawQuery := (⟨rawQL⟩ : String) }
          else none
        else
          some { scheme := scheme, omitHost := scheme ≠ "", path := ⟨coreL⟩,
                 forceQuery := forceQ,
                 rawQuery := (⟨rawQL⟩ : String) } : Option GoURL).isSome = true := by
    intro rawQL forceQ
    by_cases hh : coreL.head? = some '/'
    · rw [if_neg (not_not_intro hh)]
      by_cases ht2 : coreL.take 2 = ['/', '/']
      · rw [if_pos ⟨Or.inl hs, ht2⟩, if_pos (hport ht2)]
        rfl
      · rw [if_neg (fun hcnd => ht2 hcnd.2)]
        rfl
    · rw [if_pos hh, if_pos hs]
      rfl
  rcases hqshape with hq0 | hq1 | ⟨t, ht, hq2⟩
  · subst hq0
    simp only [List.append_nil, parseAfterScheme]
    have hcnd : ¬ (coreL.getLast? = some '?' ∧ ¬ coreL.dropLast.contains '?' = true) :=
      fun hcnd => hcq (List.mem_of_mem_getLast? hcnd.1)
    rw [if_neg hcnd, cutList_of_not_mem _ _ hcq]
    exact hbranch [] false
  · subst hq1
    simp only [parseAfterScheme]
    have hlast : (coreL ++ ['?']).getLast? = some '?' := by simp
    have hdl : (coreL ++ ['?']).dropLast = coreL := by simp
    have hcont : coreL.contains '?' = false :=
      contains_eq_false coreL '?' (fun c hc he => hcq (he ▸ hc))
    have hc2 : (coreL ++ ['?']).getLast? = some '?' ∧
        ¬ (coreL ++ ['?']).dropLast.contains '?' = true :=
      ⟨hlast, by rw [hdl, hcont]; simp⟩
    rw [if_pos hc2, hdl]
    exact hbranch [] true
  · subst hq2
    simp only [parseAfterScheme]
    have hmem : '?' ∈ (coreL ++ '?' :: t).dropLast := by
      rw [List.dropLast_append_of_ne_nil coreL (by simp)]
      rw [List.dropLast_cons_of_ne_nil]
      · simp
      · exact ht
    have hcnd : ¬ ((coreL ++ '?' :: t).getLast? = some '?' ∧
        ¬ (coreL ++ '?' :: t).dropLast.contains '?' = true) :=
      fun hcnd => hcnd.2 (List.elem_iff.mpr hmem)
    rw [if_neg hcnd, cutList_append_not_mem '?' coreL t hcq]
    exact hbranch t false

/-- `parseURL` succeeds on any string assembled as
`scheme ++ ":" ++ core ++ query-part ++ fragment-part` from allowed
characters, with a well-formed non-empty scheme, a `#`- and `?`-free
core whose authority (if any) carries a valid optional port, and a
`#`-free query. -/
theorem parseURL_assembled_isSome (scheme : String) (coreL qRaw fRaw : List Char)
    (fq : Bool)
    (hs : scheme ≠ "")
    (hcls : ∀ c ∈ scheme.data,
      isAlphaChar c = true ∨ isDigitChar c = true ∨ c = '+' ∨ c = '-' ∨ c = '.')
    (hhd : ∀ c cs, scheme.data = c :: cs → isAlphaChar c = true)
    (hca : ∀ c ∈ coreL, allowedURLChar c = true)
    (hch : '#' ∉ coreL) (hcq : '?' ∉ coreL)
    (hqh : '#' ∉ qRaw) (hqa : ∀ c ∈ qRaw, allowedURLChar c = true)
    (hfa : ∀ c ∈ fRaw, allowedURLChar c = true)
    (hport : coreL.take 2 = ['/', '/'] →
      validOptionalPort ((coreL.drop 2).takeWhile (· ≠ '/')) = true) :
    (parseURL ⟨scheme.data ++ ':' ::
      (coreL ++ (if fq ∨ qRaw ≠ [] then '?' :: qRaw else []) ++
        (if fRaw ≠ [] then '#' :: fRaw else []))⟩).isSome = true := by
  have hqLshape : (if fq ∨ qRaw ≠ [] then '?' :: qRaw else []) = [] ∨
      (if fq ∨ qRaw ≠ [] then '?' :: qRaw else []) = ['?'] ∨
      ∃ t, t ≠ [] ∧ (if fq ∨ qRaw ≠ [] then '?' :: qRaw else []) = '?' :: t := by
    split
    · rcases hqr : qRaw with _ | ⟨c, cs⟩
      · exact Or.inr (Or.inl rfl)
      · exact Or.inr (Or.inr ⟨c :: cs, by simp, rfl⟩)
    · exact Or.inl rfl
  have hqLall : ∀ c ∈ (if fq ∨ qRaw ≠ [] then '?' :: qRaw else []),
      allowedURLChar c = true := by
    split
    · intro c hc
      rcases List.mem_cons.mp hc with h | h
      · rw [h]; decide
      · exact hqa c h
    · intro c hc
      exact absurd hc (by simp)
  have hqLhash : ('#' : Char) ∉ (if fq ∨ qRaw ≠ [] then '?' :: qRaw else []) := by
    split
    · intro hc
      rcases List.mem_cons.mp hc with h | h
      · exact absurd h (by decide)
      · exact hqh h
    · simp
  have hfLall : ∀ c ∈ (if fRaw ≠ [] then '#' :: fRaw else []),
      allowedURLChar c = true := by
    split
    · intro c hc
      rcases List.mem_cons.mp hc with h | h
      · rw [h]; decide
      · exact hfa c h
    · intro c hc
      exact absurd hc (by simp)
  have hfLshape : (if fRaw ≠ [] then '#' :: fRaw else []) = [] ∨
      ∃ t, (if fRaw ≠ [] then '#' :: fRaw else []) = '#' :: t := by
    split
    · exact Or.inr ⟨fRaw, rfl⟩
    · exact Or.inl rfl
  generalize hqLe : (if fq ∨ qRaw ≠ [] then '?' :: qRaw else []) = qL
    at hqLshape hqLall hqLhash ⊢
  generalize hfLe : (if fRaw ≠ [] then '#' :: fRaw else []) = fL
    at hfLall hfLshape ⊢
  have hall : (scheme.data ++ ':' :: (coreL ++ qL ++ fL)).all allowedURLChar = true := by
    rw [List.all_eq_true]
    intro c hc
    rcases List.mem_append.mp hc with h | h
    · exact allowed_of_class c (hcls c h)
    · rcases List.mem_cons.mp h with h' | h'
      · rw [h']; decide
      · rcases List.mem_append.mp h' with h2 | h2
        · rcases List.mem_append.mp h2 with h3 | h3
          · exact hca c h3
          · exact hqLall c h3
        · exact hfLall c h2
  have hpreh : ('#' : Char) ∉ scheme.data ++ ':' :: (coreL ++ qL) := by
    intro hm
    rcases List.mem_append.mp hm with h | h
    · exact scheme_class_ne_hash '#' (hcls '#' h) rfl
    · rcases List.mem_cons.mp h with h' | h'
      · exact absurd h' (by decide)
      · rcases List.mem_append.mp h' with h2 | h2
        · exact hch h2
        · exact hqLhash h2
  have hcut1 : (cutList '#' (scheme.data ++ ':' :: (coreL ++ qL ++ fL))).1
      = scheme.data ++ ':' :: (coreL ++ qL) := by
    rcases hfLshape with hf0 | ⟨t, hft⟩
    · rw [hf0, List.append_nil, cutList_of_not_mem _ _ hpreh]
    · rw [hft]
      have hsplit : scheme.data ++ ':' :: (coreL ++ qL ++ '#' :: t)
          = (scheme.data ++ ':' :: (coreL ++ qL)) ++ '#' :: t := by simp
      rw [hsplit, cutList_append_not_mem _ _ _ hpreh]
  have hschne : scheme.data ≠ [] := fun he => hs ((string_eq_empty_iff scheme).mpr he)
  have hgs : getScheme ⟨scheme.data ++ ':' :: (coreL ++ qL)⟩
      = some (scheme, ⟨coreL ++ qL⟩) := by
    have hfind := getSchemeAux_finds ⟨scheme.data ++ ':' :: (coreL ++ qL)⟩
      scheme.data [] (coreL ++ qL) rfl hcls ?_
    · simp only [List.nil_append] at hfind
      exact hfind
    · intro _
      rcases hd : scheme.data with _ | ⟨c, cs⟩
      · exact absurd hd hschne
      · exact ⟨c, cs, rfl, hhd c cs hd⟩
  obtain ⟨u', hu'⟩ := Option.isSome_iff_exists.mp
    (parseAfterScheme_isSome_of (lowerStr scheme) coreL qL
      (lowerStr_ne_empty scheme hs) hcq hqLshape hport)
  simp only [parseURL]
  rw [if_neg (not_not_intro hall)]
  simp only [hcut1, hgs, hu']
  rfl

theorem takeWhile_eq_self_of_all (p : Char → Bool) (l : List Char)
    (h : ∀ c ∈ l, p c = true) : l.takeWhile p = l := by
  have := takeWhile_append_of_all p l [] h
  simpa using this

/-- A printed URL re-parses: `urlString` output built from a well-formed
non-empty scheme and either a well-formed opaque component or a non-empty
well-formed host is accepted by `parseURL`. -/
theorem parseURL_urlString_isSome (u : GoURL)
    (hs : u.scheme ≠ "")
    (hcls : ∀ c ∈ u.scheme.data,
      isAlphaChar c = true ∨ isDigitChar c = true ∨ c = '+' ∨ c = '-' ∨ c = '.')
    (hhd : ∀ c cs, u.scheme.data = c :: cs → isAlphaChar c = true)
    (hcase :
      (u.opq ≠ "" ∧ u.opq.data.head? ≠ some '/' ∧ '#' ∉ u.opq.data ∧ '?' ∉ u.opq.data ∧
        (∀ c ∈ u.opq.data, allowedURLChar c = true)) ∨
      (u.opq = "" ∧ u.host ≠ "" ∧ '#' ∉ u.host.data ∧ '?' ∉ u.host.data ∧
        '/' ∉ u.host.data ∧ validOptionalPort u.host.data = true ∧
        (∀ c ∈ u.host.data, allowedURLChar c = true) ∧
        '#' ∉ u.path.data ∧ '?' ∉ u.path.data ∧
        (∀ c ∈ u.path.data, allowedURLChar c = true)))
    (hqh : '#' ∉ u.rawQuery.data)
    (hqa : ∀ c ∈ u.rawQuery.data, allowedURLChar c = true)
    (hfa : ∀ c ∈ u.fragment.data, allowedURLChar c = true) :
    (parseURL (urlString u)).isSome = true := by
  have hqdata : (if u.forceQuery ∨ u.rawQuery ≠ "" then "?" ++ u.rawQuery else "").data
      = (if u.forceQuery ∨ u.rawQuery.data ≠ [] then '?' :: u.rawQuery.data else []) := by
    have hed : ("" : String).data = [] := rfl
    by_cases hb : u.rawQuery = ""
    · by_cases hfq : u.forceQuery = true
      · simp [hb, hfq, hed, String.data_append]
      · simp [hb, hfq, hed]
    · have hb2 : u.rawQuery.data ≠ [] := fun hd => hb ((string_eq_empty_iff _).mpr hd)
      simp [hb, hb2, String.data_append]
  have hfdata : (if u.fragment = "" then "" else "#" ++ u.fragment).data
      = (if u.fragment.data = [] then [] else '#' :: u.fragment.data) := by
    have hed : ("" : String).data = [] := rfl
    by_cases hb : u.fragment = ""
    · simp [hb, hed]
    · have hb2 : u.fragment.data ≠ [] := fun hd => hb ((string_eq_empty_iff _).mpr hd)
      simp [hb, hb2, String.data_append]
  rcases hcase with ⟨hone, hoph, hohash, hoq, hoa⟩ | hhier
  · have hstring : urlString u = ⟨u.scheme.data ++ ':' ::
        (u.opq.data ++
          (if u.forceQuery = true ∨ u.rawQuery.data ≠ [] then '?' :: u.rawQuery.data
            else []) ++
          (if u.fragment.data ≠ [] then '#' :: u.fragment.data else []))⟩ := by
      apply string_data_ext
      simp [urlString, hs, hone, hqdata, hfdata, String.data_append, List.append_assoc]
    rw [hstring]
    refine parseURL_assembled_isSome u.scheme u.opq.data u.rawQuery.data u.fragment.data
      u.forceQuery hs hcls hhd hoa hohash hoq hqh hqa hfa ?_
    intro ht2
    exfalso
    apply hoph
    rcases hd : u.opq.data with _ | ⟨c0, cs⟩
    · rw [hd] at ht2
      exact absurd ht2 (by simp)
    · rw [hd] at ht2
      simp only [List.take_succ_cons] at ht2
      injection ht2 with h1 _
      rw [h1]
      rfl
  · obtain ⟨hopq0, hhne, hhh, hhq, hhsl, hhp, hha, hph, hpq, hpa⟩ := hhier
    have hhall : ∀ c ∈ u.host.data, (fun c => decide (c ≠ '/')) c = true :=
      fun c hcm => decide_eq_true (fun he => hhsl (he ▸ hcm))
    by_cases hpne : u.path = ""
    · -- no path: core is `//host`
      have hstring : urlString u = ⟨u.scheme.data ++ ':' ::
          (('/' :: '/' :: u.host.data) ++
            (if u.forceQuery = true ∨ u.rawQuery.data ≠ [] then '?' :: u.rawQuery.data
              else []) ++
            (if u.fragment.data ≠ [] then '#' :: u.fragment.data else []))⟩ := by
        apply string_data_ext
        simp [urlString, hs, hopq0, hhne, hpne, hqdata, hfdata, String.data_append,
          List.append_assoc]
      rw [hstring]
      refine parseURL_assembled_isSome u.scheme ('/' :: '/' :: u.host.data)
        u.rawQuery.data u.fragment.data u.forceQuery hs hcls hhd ?_ ?_ ?_ hqh hqa hfa ?_
      · intro c hc
        rcases List.mem_cons.mp hc with h | h
        · rw [h]; decide
        · rcases List.mem_cons.mp h with h' | h'
          · rw [h']; decide
          · exact hha c h'
      · intro hc
        rcases List.mem_cons.mp hc with h | h
        · exact absurd h (by decide)
        · rcases List.mem_cons.mp h with h' | h'
          · exact absurd h' (by decide)
          · exact hhh h'
      · intro hc
        rcases List.mem_cons.mp hc with h | h
        · exact absurd h (by decide)
        · rcases List.mem_cons.mp h with h' | h'
          · exact absurd h' (by decide)
          · exact hhq h'
      · intro _
        have hdrop : ('/' :: '/' :: u.host.data).drop 2 = u.host.data := rfl
        rw [hdrop, takeWhile_eq_self_of_all _ _ hhall]
        exact hhp
    · by_cases hphead : u.path.data.head? = some '/'
      · -- absolute path: core is `//host` ++ path
        have hstring : urlString u = ⟨u.scheme.data ++ ':' ::
            (('/' :: '/' :: (u.host.data ++ u.path.data)) ++
              (if u.forceQuery = true ∨ u.rawQuery.data ≠ [] then '?' :: u.rawQuery.data
                else []) ++
              (if u.fragment.data ≠ [] then '#' :: u.fragment.data else []))⟩ := by
          apply string_data_ext
          simp [urlString, hs, hopq0, hhne, hpne, hphead, hqdata, hfdata,
            String.data_append, List.append_assoc]
        rw [hstring]
        refine parseURL_assembled_isSome u.scheme ('/' :: '/' :: (u.host.data ++ u.path.data))
          u.rawQuery.data u.fragment.data u.forceQuery hs hcls hhd ?_ ?_ ?_ hqh hqa hfa ?_
        · intro c hc
          rcases List.mem_cons.mp hc with h | h
          · rw [h]; decide
          · rcases List.mem_cons.mp h with h' | h'
            · rw [h']; decide
            · rcases List.mem_append.mp h' with h2 | h2
              · exact hha c h2
              · exact hpa c h2
        · intro hc
          rcases List.mem_cons.mp hc with h | h
          · exact absurd h (by decide)
          · rcases List.mem_cons.mp h with h' | h'
            · exact absurd h' (by decide)
            · rcases List.mem_append.mp h' with h2 | h2
              · exact hhh h2
              · exact hph h2
        · intro hc
          rcases List.mem_cons.mp hc with h | h
          · exact absurd h (by decide)
          · rcases List.mem_cons.mp h with h' | h'
            · exact absurd h' (by decide)
            · rcases List.mem_append.mp h' with h2 | h2
              · exact hhq h2
              · exact hpq h2
        · intro _
          have hdrop : ('/' :: '/' :: (u.host.data ++ u.path.data)).drop 2
              = u.host.data ++ u.path.data := rfl
          rw [hdrop, takeWhile_append_of_all _ _ _ hhall]
          have htw : u.path.data.takeWhile (fun c => decide (c ≠ '/')) = [] := by
            rcases hd : u.path.data with _ | ⟨c0, cs⟩
            · rfl
            · rw [hd] at hphead
              simp only [List.head?_cons, Option.some.injEq] at hphead
              rw [hphead]
              simp [List.takeWhile_cons]
          rw [htw, List.append_nil]
          exact hhp
      · -- relative path: a separating slash is inserted after the host
        have hstring : urlString u = ⟨u.scheme.data ++ ':' ::
            (('/' :: '/' :: (u.host.data ++ '/' :: u.path.data)) ++
              (if u.forceQuery = true ∨ u.rawQuery.data ≠ [] then '?' :: u.rawQuery.data
                else []) ++
              (if u.fragment.data ≠ [] then '#' :: u.fragment.data else []))⟩ := by
          apply string_data_ext
          simp [urlString, hs, hopq0, hhne, hpne, hphead, hqdata, hfdata,
            String.data_append, List.append_assoc]
        rw [hstring]
        refine parseURL_assembled_isSome u.scheme
          ('/' :: '/' :: (u.host.data ++ '/' :: u.path.data))
          u.rawQuery.data u.fragment.data u.forceQuery hs hcls hhd ?_ ?_ ?_ hqh hqa hfa ?_
        · intro c hc
          rcases List.mem_cons.mp hc with h | h
          · rw [h]; decide
          · rcases List.mem_cons.mp h with h' | h'
            · rw [h']; decide
            · rcases List.mem_append.mp h' with h2 | h2
              · exact hha c h2
              · rcases List.mem_cons.mp h2 with h3 | h3
                · rw [h3]; decide
                · exact hpa c h3
        · intro hc
          rcases List.mem_cons.mp hc with h | h
          · exact absurd h (by decide)
          · rcases List.mem_cons.mp h with h' | h'
            · exact absurd h' (by decide)
            · rcases List.mem_append.mp h' with h2 | h2
              · exact hhh h2
              · rcases List.mem_cons.mp h2 with h3 | h3
                · exact absurd h3 (by decide)
                · exact hph h3
        · intro hc
          rcases List.mem_cons.mp hc with h | h
          · exact absurd h (by decide)
          · rcases List.mem_cons.mp h with h' | h'
            · exact absurd h' (by decide)
            · rcases List.mem_append.mp h' with h2 | h2
              · exact hhq h2
              · rcases List.mem_cons.mp h2 with h3 | h3
                · exact absurd h3 (by decide)
                · exact hpq h3
        · intro _
          have hdrop : ('/' :: '/' :: (u.host.data ++ '/' :: u.path.data)).drop 2
              = u.host.data ++ '/' :: u.path.data := rfl
          rw [hdrop, takeWhile_append_of_all _ _ _ hhall]
          have htw : ('/' :: u.path.data).takeWhile (fun c => decide (c ≠ '/')) = [] := by
            simp [List.takeWhile_cons]
          rw [htw, List.append_nil]
          exact hhp

/-- A location resolved against a parsed base carrying a scheme and a
host is itself parseable, and carries a non-empty scheme; the reference
must not be a host-less, opaque-less hierarchical absolute URL. -/
theorem resolved_reparse (base loc : String) (b r : GoURL)
    (hb : parseURL base = some b) (hr : parseURL loc = some r)
    (hbs : b.scheme ≠ "") (hbh : b.host ≠ "")
    (hnd : r.scheme = "" ∨ r.host ≠ "" ∨ r.opq ≠ "") :
    (resolveReference b r).scheme ≠ "" ∧
    (parseURL (urlString (resolveReference b r))).isSome = true := by
  obtain ⟨bcls, bhd, -, -, -, -, bhh, bhq, bhsl, bhp, bha, bph, bpq, bpa, bqh, bqa, bfa⟩ :=
    parseURL_sound base b hb
  obtain ⟨rcls, rhd, ropq, rohash, roq, roa, rhh, rhq, rhsl, rhp, rha, rph, rpq, rpa,
    rqh, rqa, rfa⟩ := parseURL_sound loc r hr
  by_cases h1 : r.scheme ≠ "" ∨ r.host ≠ ""
  · have hres : resolveReference b r = { r with
        scheme := if r.scheme = "" then b.scheme else r.scheme,
        path := resolvePath r.path "" } := by
      simp only [resolveReference]
      rw [if_pos h1]
    have hS : (if r.scheme = "" then b.scheme else r.scheme) ≠ "" ∧
        (∀ c ∈ (if r.scheme = "" then b.scheme else r.scheme).data,
          isAlphaChar c = true ∨ isDigitChar c = true ∨ c = '+' ∨ c = '-' ∨ c = '.') ∧
        (∀ c cs, (if r.scheme = "" then b.scheme else r.scheme).data = c :: cs →
          isAlphaChar c = true) := by
      by_cases hrs : r.scheme = ""
      · rw [if_pos hrs]
        exact ⟨hbs, bcls, bhd⟩
      · rw [if_neg hrs]
        exact ⟨hrs, rcls, rhd⟩
    have hpz : ∀ c ∈ (resolvePath r.path "").data, c ∈ r.path.data ∨ c = '/' := by
      intro c hc
      rcases resolvePath_subset r.path "" c hc with h | h | h
      · exact Or.inl h
      · exact absurd h (by simp)
      · exact Or.inr h
    have hpzh : ('#' : Char) ∉ (resolvePath r.path "").data := by
      intro hm
      rcases hpz '#' hm with h | h
      · exact rph h
      · exact absurd h (by decide)
    have hpzq : ('?' : Char) ∉ (resolvePath r.path "").data := by
      intro hm
      rcases hpz '?' hm with h | h
      · exact rpq h
      · exact absurd h (by decide)
    have hpza : ∀ c ∈ (resolvePath r.path "").data, allowedURLChar c = true := by
      intro c hc
      rcases hpz c hc with h | h
      · exact rpa c h
      · rw [h]; decide
    rw [hres]
    constructor
    · exact hS.1
    · refine parseURL_urlString_isSome _ hS.1 hS.2.1 hS.2.2 ?_ rqh rqa rfa
      by_cases hropq : r.opq = ""
      · right
        have hrhost : r.host ≠ "" := by
          rcases h1 with h | h
          · rcases hnd with h' | h' | h'
            · exact absurd h' h
            · exact h'
            · exact absurd hropq h'
          · exact h
        exact ⟨hropq, hrhost, rhh, rhq, rhsl, rhp, rha, hpzh, hpzq, hpza⟩
      · left
        obtain ⟨-, hoh, -⟩ := ropq hropq
        exact ⟨hropq, hoh, rohash, roq, roa⟩
  · have hrs0 : r.scheme = "" := by
      rcases not_or.mp h1 with ⟨h, -⟩
      exact not_not.mp h
    have hropq0 : r.opq = "" := by
      by_contra hne
      exact (ropq hne).1 hrs0
    have hres : resolveReference b r = { r with
        scheme := b.scheme,
        host := b.host,
        path := resolvePath b.path r.path,
        rawQuery := if r.path = "" ∧ ¬ r.forceQuery ∧ r.rawQuery = ""
          then b.rawQuery else r.rawQuery,
        fragment := if (r.path = "" ∧ ¬ r.forceQuery ∧ r.rawQuery = "") ∧ r.fragment = ""
          then b.fragment else r.fragment } := by
      simp only [resolveReference]
      rw [if_neg h1, if_neg (not_not_intro hropq0), if_pos hrs0]
    have hpz := resolvePath_subset b.path r.path
    have hpzh : ('#' : Char) ∉ (resolvePath b.path r.path).data := by
      intro hm
      rcases hpz '#' hm with h | h | h
      · exact bph h
      · exact rph h
      · exact absurd h (by decide)
    have hpzq : ('?' : Char) ∉ (resolvePath b.path r.path).data := by
      intro hm
      rcases hpz '?' hm with h | h | h
      · exact bpq h
      · exact rpq h
      · exact absurd h (by decide)
    have hpza : ∀ c ∈ (resolvePath b.path r.path).data, allowedURLChar c = true := by
      intro c hc
      rcases hpz c hc with h | h | h
      · exact bpa c h
      · exact rpa c h
      · rw [h]; decide
    have hQh : ('#' : Char) ∉ (if r.path = "" ∧ ¬ r.forceQuery ∧ r.rawQuery = ""
        then b.rawQuery else r.rawQuery).data := by
      split
      · exact bqh
      · exact rqh
    have hQa : ∀ c ∈ (if r.path = "" ∧ ¬ r.forceQuery ∧ r.rawQuery = ""
        then b.rawQuery else r.rawQuery).data, allowedURLChar c = true := by
      split
      · exact bqa
      · exact rqa
    have hFa : ∀ c ∈ (if (r.path = "" ∧ ¬ r.forceQuery ∧ r.rawQuery = "") ∧ r.fragment = ""
        then b.fragment else r.fragment).data, allowedURLChar c = true := by
      split
      · exact bfa
      · exact rfa
    rw [hres]
    refine ⟨hbs, ?_⟩
    refine parseURL_urlString_isSome _ hbs bcls bhd ?_ hQh hQa hFa
    right
    exact ⟨hropq0, hbh, bhh, bhq, bhsl, bhp, bha, hpzh, hpzq, hpza⟩

theorem AddURLs_baseURL (s0 : SitemapOptions) (inputs : List (SitemapURL × Instant)) :
    (AddURLs s0 inputs).baseURL = s0.baseURL := by
  induction inputs generalizing s0 with
  | nil => rfl
  | cons p ps ih =>
    simp only [AddURLs, List.foldl_cons]
    exact ih (AddURL s0 p.1 p.2)

/-- The collection after a sequence of `AddURL` calls: every entry is
appended in order with its `lastMod` normalised against that call's
clock. -/
theorem AddURLs_urls (s0 : SitemapOptions) (inputs : List (SitemapURL × Instant)) :
    (AddURLs s0 inputs).urls = s0.urls ++ inputs.map
      (fun p => { p.1 with lastMod := normalizeLastMod p.1.lastMod p.2 }) := by
  induction inputs generalizing s0 with
  | nil => simp [AddURLs]
  | cons p ps ih =>
    simp only [AddURLs, List.foldl_cons, List.map_cons]
    rw [show (List.foldl (fun st q => AddURL st q.1 q.2) (AddURL s0 p.1 p.2) ps)
        = AddURLs (AddURL s0 p.1 p.2) ps from rfl]
    rw [ih]
    simp [AddURL]

/-- A date accepted by `parseDate` is a valid calendar date. -/
theorem parseDate_valid (s : String) (d : CalDate) (h : parseDate s = some d) :
    validDate d = true := by
  simp only [parseDate] at h
  split at h
  · split at h
    · split at h
      · rename_i hv
        injection h with h'
        rw [← h']
        exact hv
      · exact absurd h (by simp)
    · exact absurd h (by simp)
  · exact absurd h (by simp)

/-- The normalised `lastMod` always parses to a valid calendar date, as
long as the clock reading carries one (with a four-digit year). -/
theorem normalizeLastMod_parses (lm : String) (now : Instant)
    (hv : validDate now.date = true) (hy : now.date.year ≤ 9999) :
    ∃ d, parseDate (normalizeLastMod lm now) = some d ∧ validDate d = true := by
  unfold normalizeLastMod
  by_cases he : lm = ""
  · rw [if_pos he]
    exact ⟨now.date, parseDate_formatDate now.date hv hy, hv⟩
  · rw [if_neg he]
    rcases hp : parseDate lm with _ | d0
    · simp only [hp]
      exact ⟨now.date, parseDate_formatDate now.date hv hy, hv⟩
    · simp only [hp]
      by_cases ht : timeAfter ⟨d0, 0⟩ now = true
      · rw [if_pos ht]
        exact ⟨now.date, parseDate_formatDate now.date hv hy, hv⟩
      · rw [if_neg ht]
        exact ⟨d0, hp, parseDate_valid lm d0 hp⟩

/-- The rendering of a URL with a scheme is non-empty. -/
theorem urlString_ne_empty (u : GoURL) (h : u.scheme ≠ "") : urlString u ≠ "" := by
  intro he
  have htake := urlString_scheme_take u h
  rw [he] at htake
  have hed : ("" : String).data = [] := rfl
  rw [hed] at htake
  simp at htake

/-- C9: after any sequence of `AddURL`/`AddURLs` calls on a fresh
`SitemapOptions`, when `Write` is invoked — against a base URL that
parses with a scheme and a host, every added location parsing to a URL
that is relative, carries a host, or is opaque, and every call's clock
reading holding a valid calendar date with a four-digit year — every
entry in the in-memory collection at the moment emission begins (the
receiver's collection once the in-place resolution pass has run) has a
non-empty location that itself parses as a URL, and a `lastModified`
that parses as a valid calendar date. -/
theorem C9_emission_invariant
    (dir baseURL bs ss : String) (inputs : List (SitemapURL × Instant))
    (wnow : Instant) (v : List String → Bool → Option String) (b : GoURL)
    (hb : parseURL (trimRightSlashes baseURL) = some b)
    (hbs : b.scheme ≠ "") (hbh : b.host ≠ "")
    (hlocs : ∀ p ∈ inputs, ∃ r, parseURL p.1.loc = some r ∧
      (r.scheme = "" ∨ r.host ≠ "" ∨ r.opq ≠ ""))
    (hinst : ∀ p ∈ inputs, validDate p.2.date = true ∧ p.2.date.year ≤ 9999) :
    ∀ u ∈ ((AddURLs (NewSitemapOptions dir baseURL) inputs).Write bs ss wnow v).state.urls,
      u.loc ≠ "" ∧ (parseURL u.loc).isSome = true ∧
      ∃ d, parseDate u.lastMod = some d ∧ validDate d = true := by
  intro u hu
  have hsurls : (AddURLs (NewSitemapOptions dir baseURL) inputs).urls
      = inputs.map (fun p => { p.1 with lastMod := normalizeLastMod p.1.lastMod p.2 }) := by
    rw [AddURLs_urls]
    simp [NewSitemapOptions]
  have hsbase : (AddURLs (NewSitemapOptions dir baseURL) inputs).baseURL
      = trimRightSlashes baseURL := by
    rw [AddURLs_baseURL]
    rfl
  have hbase : ∀ x ∈ (AddURLs (NewSitemapOptions dir baseURL) inputs).urls,
      (resolveURLAgainst (AddURLs (NewSitemapOptions dir baseURL) inputs).baseURL
        x.loc).isSome := by
    intro x hx
    rw [hsurls] at hx
    obtain ⟨p, hp, rfl⟩ := List.mem_map.mp hx
    obtain ⟨r, hr, -⟩ := hlocs p hp
    rw [hsbase]
    simp [resolveURLAgainst, hb, hr]
  have hstate := write_state_eq (AddURLs (NewSitemapOptions dir baseURL) inputs)
    bs ss wnow v hbase
  rw [hstate] at hu
  have hu' : u ∈ ((AddURLs (NewSitemapOptions dir baseURL) inputs).urls.map
      (fun x => { x with loc := (resolveURLAgainst
        (AddURLs (NewSitemapOptions dir baseURL) inputs).baseURL x.loc).getD "" })) := hu
  rw [hsurls, hsbase] at hu'
  obtain ⟨e, he, rfl⟩ := List.mem_map.mp hu'
  obtain ⟨p, hp, rfl⟩ := List.mem_map.mp he
  obtain ⟨r, hr, hnd⟩ := hlocs p hp
  have hres : resolveURLAgainst (trimRightSlashes baseURL) p.1.loc
      = some (urlString (resolveReference b r)) := by
    simp [resolveURLAgainst, hb, hr]
  obtain ⟨hsch, hreparse⟩ := resolved_reparse (trimRightSlashes baseURL) p.1.loc b r
    hb hr hbs hbh hnd
  refine ⟨?_, ?_, ?_⟩
  · show (resolveURLAgainst (trimRightSlashes baseURL) p.1.loc).getD "" ≠ ""
    rw [hres]
    exact urlString_ne_empty _ hsch
  · show (parseURL ((resolveURLAgainst (trimRightSlashes baseURL) p.1.loc).getD
      "")).isSome = true
    rw [hres]
    exact hreparse
  · exact normalizeLastMod_parses p.1.lastMod p.2 (hinst p hp).1 (hinst p hp).2

/-- C9 witness: one relative entry with an empty `lastModified`, added
against `https://example.com/`; after `Write` the stored entry — the
resolved `https://example.com/page.html` stamped `2025-10-11` — holds a
non-empty parseable location and a valid date. -/
theorem C9_emission_invariant_witness :
    ({ loc := "https://example.com/page.html", lastMod := "2025-10-11",
        changeFreq := "", priority := "" } : SitemapURL).loc ≠ "" ∧
    (parseURL
        ({ loc := "https://example.com/page.html", lastMod := "2025-10-11",
           changeFreq := "", priority := "" } : SitemapURL).loc).isSome = true ∧
    ∃ d,
      parseDate
          ({ loc := "https://example.com/page.html", lastMod := "2025-10-11",
             changeFreq := "", priority := "" } : SitemapURL).lastMod = some d ∧
      validDate d = true :=
  C9_emission_invariant "out" "https://example.com/" "https://example.com" ""
    [({ loc := "page.html", lastMod := "", changeFreq := "", priority := "" },
      ⟨⟨2025, 10, 11⟩, 0⟩)]
    ⟨⟨2025, 10, 11⟩, 0⟩ (fun _ _ => none)
    { scheme := "https", host := "example.com" }
    (by decide) (by decide) (by decide)
    (by
      intro p hp
      simp only [List.mem_singleton] at hp
      subst hp
      exact ⟨{ path := "page.html" }, by decide, Or.inl (by decide)⟩)
    (by
      intro p hp
      simp only [List.mem_singleton] at hp
      subst hp
      exact ⟨by decide, by decide⟩)
    { loc := "https://example.com/page.html", lastMod := "2025-10-11",
      changeFreq := "", priority := "" }
    (by decide)

end NyxSitemap
